import Mathlib

/-!
Verification of the minicoro library (coroutine.h, coro_mutex.h, coro_queue.h,
coro_scheduler.h) against its natural-language specification.

The C++ sources are shallowly embedded: each C++ member function becomes a pure
Lean function on an explicit state record.  Frames (coroutine handles), closures
and transported exceptions are identified by opaque numeric ids.
-/

/-- Signals thrown by the library: `invalid_state` and `await_canceled_exception`
(coroutine.h lines 199-208). -/
inductive Signal where
  | invalidState
  | awaitCanceled
deriving DecidableEq, Repr

/-- The six-state tag of `awaitable<T>` (coroutine.h, enum `State`, lines 949-962).
`no_value` is the Empty/cancellation sentinel, `value`/`exception` are the resolved
states, `coro` holds a `coroutine<T>` object (whose internal promise pointer may be
null, hence `Option Nat`), `callback`/`callback_ptr` hold a closure (identified by
an opaque id) inline respectively out-of-line. -/
inductive AwState (T : Type) where
  | no_value
  | value (v : T)
  | exception (e : Nat)
  | coro (frame : Option Nat)
  | callback (cb : Nat)
  | callback_ptr (cb : Nat)
deriving DecidableEq, Repr

/-- The `awaitable<T>` future handle: the state tag plus the registered consumer
frame `_owner` (coroutine.h lines 964-971). -/
structure Awaitable (T : Type) where
  state : AwState T
  owner : Option Nat
deriving DecidableEq, Repr

/-- Result of `await_resume` (coroutine.h lines 723-736): the stored value, the
rethrown stored exception, or `await_canceled_exception` in every other state. -/
inductive ResumeOutcome (T : Type) where
  | val (v : T)
  | raised (e : Nat)
  | canceled
deriving DecidableEq, Repr

/-- Embeds `awaitable<T>::await_ready` (coroutine.h lines 742-744): resolved iff
the state is `no_value`, `value` or `exception`. -/
def awaitReady {T : Type} (a : Awaitable T) : Bool :=
  match a.state with
  | .no_value => true
  | .value _ => true
  | .exception _ => true
  | _ => false

/-- Embeds `awaitable<T>::await_resume` (coroutine.h lines 723-736). -/
def awaitResume {T : Type} (a : Awaitable T) : ResumeOutcome T :=
  match a.state with
  | .value v => .val v
  | .exception e => .raised e
  | _ => .canceled

/-- What happens to the pending producer (or stored payload) when the state union
is torn down.  `destroyFrame` records `coroutine::cancel` (handle destroyed without
running, coroutine.h lines 443-447); `resumeDetached` records `coroutine::~coroutine`
(handle resumed with no bound target, lines 401-405); `callUnbound` records the
destructor branches that invoke a stored closure with a default-constructed, unbound
result (`call(\x7b\x7d)`, lines 1004-1012); `dropClosure` records plain destruction of
a closure without calling it. -/
inductive DtorAction where
  | nothing
  | destroyFrame (f : Nat)
  | resumeDetached (f : Nat)
  | callUnbound (cb : Nat)
  | dropClosure (cb : Nat)
deriving DecidableEq, Repr

/-- Embeds `awaitable<T>::destroy_state` (coroutine.h lines 1016-1025): the `coro`
case first calls `_coro.cancel()` which destroys a live frame without resuming it;
the closure cases destroy the closure without calling it. -/
def destroyStateAction {T : Type} (s : AwState T) : DtorAction :=
  match s with
  | .no_value => .nothing
  | .value _ => .nothing
  | .exception _ => .nothing
  | .coro none => .nothing
  | .coro (some f) => .destroyFrame f
  | .callback cb => .dropClosure cb
  | .callback_ptr cb => .dropClosure cb

/-- Embeds `awaitable<T>::dtor` (coroutine.h lines 998-1014), the body of
`~awaitable`.  It throws `invalid_state` when a consumer is registered; otherwise
the `coro` case runs `std::destroy_at(&_coro)`, i.e. `coroutine::~coroutine`
(lines 401-405), which resumes a still-held frame in detached mode, and the two
callback cases invoke the closure with an unbound result before destroying it. -/
def dtor {T : Type} (a : Awaitable T) : Except Signal DtorAction :=
  if a.owner.isSome then .error .invalidState
  else .ok (match a.state with
    | .no_value => .nothing
    | .value _ => .nothing
    | .exception _ => .nothing
    | .coro none => .nothing
    | .coro (some f) => .resumeDetached f
    | .callback cb => .callUnbound cb
    | .callback_ptr cb => .callUnbound cb)

/-- Embeds `awaitable<T>::set_value` (coroutine.h lines 1027-1042) at the level of
the state tag: the old state is destroyed and replaced by `value`.  (The C++
try/catch around the constructor cannot fire in the pure model, where constructing
a value never throws.)  Returns the destroyed-producer action alongside. -/
def setValue {T : Type} (a : Awaitable T) (v : T) : Awaitable T × DtorAction :=
  (⟨.value v, a.owner⟩, destroyStateAction a.state)

/-- Embeds `awaitable<T>::set_exception` (coroutine.h lines 1044-1048). -/
def setException {T : Type} (a : Awaitable T) (e : Nat) : Awaitable T × DtorAction :=
  (⟨.exception e, a.owner⟩, destroyStateAction a.state)

/-- Embeds `awaitable<T>::drop` (coroutine.h lines 1050-1053): resolve to Empty. -/
def dropAw {T : Type} (a : Awaitable T) : Awaitable T × DtorAction :=
  (⟨.no_value, a.owner⟩, destroyStateAction a.state)

/-- Embeds `awaitable<T>::wakeup` (coroutine.h lines 1055-1058): if the future is
not yet resolved it is dropped to Empty, then `_owner` is exchanged for the empty
handle and returned as a prepared handle. -/
def wakeup {T : Type} (a : Awaitable T) : Awaitable T × Option Nat :=
  let a1 := if awaitReady a then a else (dropAw a).1
  (⟨a1.state, none⟩, a.owner)

/-- Embeds `awaitable<T>::create_result` (coroutine.h lines 864-868): trap with
`invalid_state` when an owner frame is already recorded, otherwise record `h` as
owner and hand out the result capability (a pointer to this future, which in the
pure model is the updated future itself). -/
def createResult {T : Type} (a : Awaitable T) (h : Nat) : Except Signal (Awaitable T) :=
  if a.owner.isSome then .error .invalidState
  else .ok ⟨a.state, some h⟩

/-- Embeds `awaitable<T>::cancel` (coroutine.h lines 875-879): trap when a
consumer is registered, otherwise destroy the stored producer and resolve Empty. -/
def cancelAw {T : Type} (a : Awaitable T) : Except Signal (Awaitable T × DtorAction) :=
  if a.owner.isSome then .error .invalidState
  else .ok (⟨.no_value, a.owner⟩, destroyStateAction a.state)

/-- The handle returned by `await_suspend` for symmetric transfer: which producer
was started.  `started f` is `_coro.start(result(this))` on a live coroutine;
`startedEmpty r` is the same call on an empty coroutine object — `start` returns
an empty prepared handle *without* releasing the temporary `result(this)`, so at
the end of the full-expression the temporary's deleter runs (the `resultDtor`
path with no exception in flight): it drops the future to Empty, and `wakeup`
exchanges the just-recorded owner `r` out and resumes it, so `r` wakes into
AwaitCancelled while `await_suspend` itself returns a noop handle;
`calledLocal`/`calledBoxed` are the closure invocations with a freshly bound
result; `selfResume h` is the defensive default branch that returns the
suspending frame itself. -/
inductive SuspendRes where
  | started (f : Nat)
  | startedEmpty (resumed : Nat)
  | calledLocal (cb : Nat)
  | calledBoxed (cb : Nat)
  | selfResume (h : Nat)
deriving DecidableEq, Repr

/-- Embeds `awaitable<T>::await_suspend` (coroutine.h lines 749-761).  Note: the
function begins with an unconditional `_owner = h` and never checks whether an
owner was already recorded.  In the `coro` case the call is
`_coro.start(result(this)).symmetric_transfer()` (coroutine.h lines 416-423): a
live inner coroutine takes ownership of the result via `res.release()` and its
frame is returned for transfer; an empty inner coroutine returns an empty
prepared handle *without* releasing the temporary result, whose deleter
(coroutine.h lines 1242-1249) then drops the future to Empty and resumes the
owner recorded a moment earlier — so the net effect of the `coro none` branch is
state Empty, owner cleared, and frame `h` resumed (into AwaitCancelled). -/
def awaitSuspend {T : Type} (a : Awaitable T) (h : Nat) : Awaitable T × SuspendRes :=
  match a.state with
  | .coro (some f) => (⟨.coro none, some h⟩, .started f)
  | .coro none => (⟨.no_value, none⟩, .startedEmpty h)
  | .callback cb => (⟨.callback cb, some h⟩, .calledLocal cb)
  | .callback_ptr cb => (⟨.callback_ptr cb, some h⟩, .calledBoxed cb)
  | s => (⟨s, some h⟩, .selfResume h)

/-- The `awaitable_result<T>` capability (coroutine.h lines 1093-1252): a
unique-pointer-like wrapper around the bound future.  `ptr = none` models the
default-constructed, already-used or released state. -/
structure AwaitableResult (T : Type) where
  ptr : Option (Awaitable T)
deriving DecidableEq, Repr

/-- Output of one `awaitable_result` operation: the result object afterwards
(always emptied, because every operation starts with `_ptr.release()`), the
updated future when one was bound, and the prepared handle returned. -/
structure ResultOpOut (T : Type) where
  res : AwaitableResult T
  fut : Option (Awaitable T)
  handle : Option Nat
deriving DecidableEq, Repr

/-- Embeds value assignment / `operator()` on `awaitable_result` (coroutine.h
lines 1120-1141 and 1173-1192): release the pointer; if it was null do nothing and
return an empty prepared handle, else `set_value` then `wakeup`. -/
def resultSetValue {T : Type} (r : AwaitableResult T) (v : T) : ResultOpOut T :=
  match r.ptr with
  | none => ⟨⟨none⟩, none, none⟩
  | some a =>
    let (a2, h) := wakeup (setValue a v).1
    ⟨⟨none⟩, some a2, h⟩

/-- Embeds `awaitable_result::operator=(std::exception_ptr)` / `set_exception`
(coroutine.h lines 1144-1167 and 1194-1202). -/
def resultSetException {T : Type} (r : AwaitableResult T) (e : Nat) : ResultOpOut T :=
  match r.ptr with
  | none => ⟨⟨none⟩, none, none⟩
  | some a =>
    let (a2, h) := wakeup (setException a e).1
    ⟨⟨none⟩, some a2, h⟩

/-- Embeds `awaitable_result::drop` (coroutine.h lines 1204-1217): resolve the
future to Empty and wake the consumer, or do nothing when the pointer is null. -/
def resultDrop {T : Type} (r : AwaitableResult T) : ResultOpOut T :=
  match r.ptr with
  | none => ⟨⟨none⟩, none, none⟩
  | some a =>
    let (a2, h) := wakeup (dropAw a).1
    ⟨⟨none⟩, some a2, h⟩

/-- Embeds the `awaitable_result` deleter (coroutine.h lines 1242-1249), run by
the owning unique_ptr on destruction when and only when the pointer is non-null:
with an exception in flight (`inflight = some e`, i.e. `std::current_exception()`
non-null during unwinding) the future is resolved to `Error e`, otherwise it is
dropped to Empty; then the consumer is woken.  Returns the updated future and the
prepared handle produced by `wakeup` (which the deleter resumes). -/
def resultDtor {T : Type} (r : AwaitableResult T) (inflight : Option Nat) :
    Option (Awaitable T) × Option Nat :=
  match r.ptr with
  | none => (none, none)
  | some a =>
    let a1 := match inflight with
      | some e => (setException a e).1
      | none => (dropAw a).1
    let (a2, h) := wakeup a1
    (some a2, h)

/-- Coherence of the `coro none` branch of `awaitSuspend` with the deleter
embedding: the future and resumed handle produced by that branch are exactly
what `resultDtor` (no exception in flight) yields on the result that
`await_suspend` had just bound — owner `h` recorded, then dropped and woken. -/
theorem awaitSuspend_empty_coro_deleter {T : Type} (ow : Option Nat) (h : Nat) :
    (resultDtor (⟨some ⟨AwState.coro none, some h⟩⟩ : AwaitableResult T) none).1
      = some (awaitSuspend (⟨AwState.coro none, ow⟩ : Awaitable T) h).1
    ∧ (resultDtor (⟨some ⟨AwState.coro none, some h⟩⟩ : AwaitableResult T) none).2
      = some h := by
  exact ⟨rfl, rfl⟩

/-- C1: if a Result bound to a future is destroyed unfulfilled with no exception
in flight, the future is resolved to Empty and a subsequent `await_resume` raises
the AwaitCancelled signal; if it is destroyed while an exception is in flight the
future is resolved to Error carrying that exception; in either case the future is
resolved (ready) once the Result is gone, with the consumer handle woken. -/
theorem c1_result_drop_resolves {T : Type} (a : Awaitable T) (e : Nat) :
    resultDtor ⟨some a⟩ none = (some ⟨AwState.no_value, none⟩, a.owner)
    ∧ awaitResume (⟨AwState.no_value, none⟩ : Awaitable T) = ResumeOutcome.canceled
    ∧ resultDtor ⟨some a⟩ (some e) = (some ⟨AwState.exception e, none⟩, a.owner)
    ∧ (∀ inflight : Option Nat,
        ∃ f : Awaitable T, (resultDtor ⟨some a⟩ inflight).1 = some f ∧ awaitReady f = true) := by
  refine ⟨rfl, rfl, rfl, ?_⟩
  intro inflight
  cases inflight with
  | none => exact ⟨⟨AwState.no_value, none⟩, rfl, rfl⟩
  | some e2 => exact ⟨⟨AwState.exception e2, none⟩, rfl, rfl⟩

/-- C2 counterexample: awaiting a future that is already owned by another awaiter
does not trap with InvalidState, and the stored state is not left unchanged.  On
a future whose stored task has already been started (state `coro` with an empty
inner coroutine object) and whose owner is frame 1, `await_suspend(2)` completes
without a trap: it records frame 2, and the unreleased temporary result's deleter
immediately drops the future to Empty, clears the owner and resumes frame 2 —
whose `await_resume` then raises AwaitCancelled, not InvalidState.  On a future
holding a pending local closure, `await_suspend(2)` silently replaces owner 1
with owner 2 and invokes the closure, again with no trap. -/
theorem c2_await_owned_no_trap_cex :
    awaitSuspend (⟨AwState.coro none, some 1⟩ : Awaitable Nat) 2
      = (⟨AwState.no_value, none⟩, SuspendRes.startedEmpty 2)
    ∧ awaitResume (⟨AwState.no_value, none⟩ : Awaitable Nat) = ResumeOutcome.canceled
    ∧ awaitSuspend (⟨AwState.callback 3, some 1⟩ : Awaitable Nat) 2
      = (⟨AwState.callback 3, some 2⟩, SuspendRes.calledLocal 3)
    ∧ (⟨AwState.callback 3, some 2⟩ : Awaitable Nat).owner ≠ some 1 := by
  exact ⟨rfl, rfl, rfl, by decide⟩

/-- C2 (amended): registering a second consumer via `create_result` and
destroying or cancelling a future while a consumer is registered trap with
InvalidState before any mutation, so the stored state is unchanged; but
`await_suspend` on an already-owned future never traps: it overwrites the
recorded owner, and when the stored task has already been started (state `coro`
with an empty coroutine object) the unreleased bound result is immediately
dropped — resolving the future to Empty, clearing the owner again and resuming
the new awaiter into AwaitCancelled; in every other state the new owner simply
replaces the old one. -/
theorem c2_invalid_state_traps {T : Type} (a : Awaitable T) (h h2 : Nat)
    (ho : a.owner = some h) :
    createResult a h2 = .error .invalidState
    ∧ dtor a = .error .invalidState
    ∧ cancelAw a = .error .invalidState
    ∧ (a.state = AwState.coro none →
        awaitSuspend a h2 = (⟨AwState.no_value, none⟩, SuspendRes.startedEmpty h2))
    ∧ (a.state ≠ AwState.coro none → (awaitSuspend a h2).1.owner = some h2) := by
  have hs : a.owner.isSome = true := by rw [ho]; rfl
  refine ⟨?_, ?_, ?_, ?_, ?_⟩
  · simp [createResult, hs]
  · simp [dtor, hs]
  · simp [cancelAw, hs]
  · intro hst
    cases a with
    | mk st ow =>
      have hst2 : st = AwState.coro none := hst
      subst hst2
      rfl
  · intro hst
    cases a with
    | mk st ow =>
      have hst2 : st ≠ AwState.coro none := hst
      cases st with
      | coro o =>
        cases o with
        | none => exact absurd rfl hst2
        | some f => rfl
      | no_value => rfl
      | value v => rfl
      | exception e => rfl
      | callback cb => rfl
      | callback_ptr cb => rfl

theorem c2_invalid_state_traps_witness :
    createResult (⟨AwState.coro none, some 1⟩ : Awaitable Nat) 2 = .error .invalidState
    ∧ dtor (⟨AwState.coro none, some 1⟩ : Awaitable Nat) = .error .invalidState
    ∧ cancelAw (⟨AwState.coro none, some 1⟩ : Awaitable Nat) = .error .invalidState
    ∧ ((⟨AwState.coro none, some 1⟩ : Awaitable Nat).state = AwState.coro none →
        awaitSuspend (⟨AwState.coro none, some 1⟩ : Awaitable Nat) 2
          = (⟨AwState.no_value, none⟩, SuspendRes.startedEmpty 2))
    ∧ ((⟨AwState.coro none, some 1⟩ : Awaitable Nat).state ≠ AwState.coro none →
        (awaitSuspend (⟨AwState.coro none, some 1⟩ : Awaitable Nat) 2).1.owner = some 2) :=
  c2_invalid_state_traps ⟨AwState.coro none, some 1⟩ 1 2 rfl

/-- C3 counterexample: destroying a future that holds a pending task (state
`coro` with a live frame) and has no consumer does not destroy the frame without
running it — the destructor path runs `coroutine::~coroutine`, which resumes the
task in detached mode. -/
theorem c3_task_detached_not_cancelled_cex :
    dtor (⟨AwState.coro (some 7), none⟩ : Awaitable Nat) = .ok (DtorAction.resumeDetached 7)
    ∧ DtorAction.resumeDetached 7 ≠ DtorAction.destroyFrame 7 := by
  exact ⟨rfl, by decide⟩

/-- C3 (amended): when a future is destroyed with no consumer registered, a
pending task (state 4) is detached exactly like pending closures: the coroutine
frame is resumed to run to completion with no bound target, and closures (states
5 and 6) are invoked with an unbound Result.  Cancellation of a pending task
(frame destroyed without running) happens only on the `destroy_state`/`cancel`
path, not in the destructor. -/
theorem c3_dtor_detaches_pending (T : Type) (f cb cb2 : Nat) :
    dtor (⟨AwState.coro (some f), none⟩ : Awaitable T) = .ok (DtorAction.resumeDetached f)
    ∧ dtor (⟨AwState.callback cb, none⟩ : Awaitable T) = .ok (DtorAction.callUnbound cb)
    ∧ dtor (⟨AwState.callback_ptr cb2, none⟩ : Awaitable T) = .ok (DtorAction.callUnbound cb2)
    ∧ destroyStateAction (AwState.coro (some f) : AwState T) = DtorAction.destroyFrame f := by
  exact ⟨rfl, rfl, rfl, rfl⟩

/-- C10: every operation on an `awaitable_result` whose internal future pointer is
empty — assigning a value, assigning an exception, invoking it, dropping it, and
destruction — is a no-op returning an empty prepared handle and touching no
future; and since every successful operation first releases the pointer, a second
fulfilment attempt on the same Result modifies no future, so each Result delivers
at most once. -/
theorem c10_empty_result_noops {T : Type} (v w : T) (e : Nat) (r : AwaitableResult T) :
    resultSetValue (⟨none⟩ : AwaitableResult T) v = ⟨⟨none⟩, none, none⟩
    ∧ resultSetException (⟨none⟩ : AwaitableResult T) e = ⟨⟨none⟩, none, none⟩
    ∧ resultDrop (⟨none⟩ : AwaitableResult T) = ⟨⟨none⟩, none, none⟩
    ∧ resultDtor (⟨none⟩ : AwaitableResult T) none = (none, none)
    ∧ resultDtor (⟨none⟩ : AwaitableResult T) (some e) = (none, none)
    ∧ (resultSetValue r v).res = ⟨none⟩
    ∧ (resultSetException r e).res = ⟨none⟩
    ∧ (resultDrop r).res = ⟨none⟩
    ∧ (resultSetValue (resultSetValue r v).res w).fut = none
    ∧ (resultSetException (resultSetValue r v).res e).fut = none := by
  refine ⟨rfl, rfl, rfl, rfl, rfl, ?_, ?_, ?_, ?_, ?_⟩
  all_goals cases r with
  | mk p =>
    cases p <;> rfl

/-!
Part 2: `coro_mutex` (coro_mutex.h).  Sequential atomic model: `locked` records
whether the doorman sentinel sits at the bottom of the `_requests` stack,
`reqStack` the waiting slots pushed above it (most recent first), `queue` the
holder-owned FIFO, and `owners` the number of outstanding `ownership` tokens.
The raw `_requests` pointer is null exactly when `locked = false` and
`reqStack = []`.
-/

/-- State of one `coro_mutex` (coro_mutex.h lines 128-133) together with a count
of the live `ownership` tokens handed out. -/
structure MxState where
  locked : Bool
  reqStack : List Nat
  queue : List Nat
  owners : Nat
deriving DecidableEq, Repr

/-- The `_requests` pointer is null: no doorman, no waiting slot. -/
def requestsNull (s : MxState) : Bool :=
  !s.locked && s.reqStack.isEmpty

/-- Embeds `coro_mutex::make_queue` (coro_mutex.h lines 162-169): walk the
captured LIFO chain pushing each slot onto the front of `_queue`, so the earliest
pushed slot ends up at the head. -/
def makeQueue : List Nat → List Nat → List Nat
  | [], q => q
  | x :: rest, q => makeQueue rest (x :: q)

/-- Embeds `coro_mutex::try_lock` (coro_mutex.h lines 82-86): CAS `_requests`
from null to the doorman; on success the caller receives an ownership token. -/
def mxTryLock (s : MxState) : MxState × Bool :=
  if requestsNull s then
    ({ s with locked := true, owners := s.owners + 1 }, true)
  else (s, false)

/-- Embeds `coro_mutex::add_request` (coro_mutex.h lines 136-149) for a slot
`sid`: push onto the `_requests` stack; if the slot's `next` was null before the
push (the stack was null), the pusher owns the lock — it exchanges `_requests`
for the doorman (capturing only itself, so `make_queue` adds nothing) and its
slot is resumed with the ownership.  Returns the resumed slot, if any. -/
def addRequest (s : MxState) (sid : Nat) : MxState × Option Nat :=
  if requestsNull s then
    ({ s with locked := true, owners := s.owners + 1 }, some sid)
  else
    ({ s with reqStack := sid :: s.reqStack }, none)

/-- Embeds `coro_mutex::lock` (coro_mutex.h lines 99-112) followed by the await
of its returned awaitable: first `try_lock`; on failure the callback parks the
slot via `add_request`.  The second component is the slot that received an
ownership immediately, if any. -/
def mxLock (s : MxState) (sid : Nat) : MxState × Option Nat :=
  let (s1, got) := mxTryLock s
  if got then (s1, some sid) else addRequest s1 sid

/-- Embeds the queue pop and hand-off at the end of `coro_mutex::unlock`
(coro_mutex.h lines 186-191): take the head of `_queue` and transfer the
ownership to its slot via `resume_slot`. -/
def popResume (s : MxState) : MxState × Option Nat :=
  match s.queue with
  | [] => (s, none)
  | f :: rest => ({ s with queue := rest, owners := s.owners + 1 }, some f)

/-- Embeds `coro_mutex::unlock` (coro_mutex.h lines 172-192), invoked by the
current ownership token when it is released (so `owners` drops by one first): if
`_queue` is empty, try CAS doorman back to null — on success the mutex is fully
released; on failure (late pushers present) drain the `_requests` LIFO through
`make_queue`.  Then pop the head of `_queue` and hand it the ownership. -/
def mxUnlock (s : MxState) : MxState × Option Nat :=
  let s0 : MxState := { s with owners := s.owners - 1 }
  if s0.queue.isEmpty then
    if s0.reqStack.isEmpty then
      ({ s0 with locked := false }, none)
    else
      popResume { s0 with queue := makeQueue s0.reqStack s0.queue, reqStack := [] }
  else
    popResume s0

/-- One public mutex operation. -/
inductive MxOp where
  | tryL (sid : Nat)
  | lockL (sid : Nat)
  | unlockL
deriving DecidableEq, Repr

/-- Apply one operation.  An `unlock` can only be issued through a live ownership
token, so it is a no-op when none exists. -/
def mxStep (s : MxState) (o : MxOp) : MxState :=
  match o with
  | .tryL _ => (mxTryLock s).1
  | .lockL sid => (mxLock s sid).1
  | .unlockL => if s.owners = 0 then s else (mxUnlock s).1

/-- The initial, fully unlocked mutex. -/
def mxInit : MxState := ⟨false, [], [], 0⟩

/-- Run a sequence of operations from the initial state. -/
def mxRun (ops : List MxOp) : MxState :=
  ops.foldl mxStep mxInit

/-- The mutex invariant: the number of live ownership tokens is one when locked
and zero when unlocked, and waiting slots (stack or queue) exist only while the
doorman is in place. -/
def MxInv (s : MxState) : Prop :=
  s.owners = (if s.locked then 1 else 0)
  ∧ (s.reqStack ≠ [] → s.locked = true)
  ∧ (s.queue ≠ [] → s.locked = true)

instance (s : MxState) : Decidable (MxInv s) := by
  unfold MxInv; infer_instance

/-- The earliest-enqueued waiter of the current drain epoch: the head of the
holder FIFO if it is non-empty, otherwise the bottom of the pending LIFO (the
first slot pushed since the last drain). -/
def epochEarliest (s : MxState) : Option Nat :=
  match s.queue, s.reqStack.reverse with
  | f :: _, _ => some f
  | [], f :: _ => some f
  | [], [] => none

theorem makeQueue_eq (l q : List Nat) : makeQueue l q = l.reverse ++ q := by
  induction l generalizing q with
  | nil => simp [makeQueue]
  | cons x rest ih => simp [makeQueue, ih]

theorem requestsNull_iff (s : MxState) :
    requestsNull s = true ↔ s.locked = false ∧ s.reqStack = [] := by
  simp [requestsNull, List.isEmpty_iff]

theorem mxStep_inv (s : MxState) (o : MxOp) (h : MxInv s) : MxInv (mxStep s o) := by
  obtain ⟨h1, h2, h3⟩ := h
  cases o with
  | tryL sid =>
    simp only [mxStep, mxTryLock]
    by_cases hn : requestsNull s = true
    · rw [if_pos hn]
      obtain ⟨hl, hr⟩ := (requestsNull_iff s).1 hn
      rw [hl] at h1
      have h0 : s.owners = 0 := by simpa using h1
      refine ⟨by simp [h0], fun _ => rfl, fun _ => rfl⟩
    · rw [if_neg hn]
      exact ⟨h1, h2, h3⟩
  | lockL sid =>
    simp only [mxStep, mxLock, mxTryLock, addRequest]
    by_cases hn : requestsNull s = true
    · simp only [hn, if_true, if_pos]
      obtain ⟨hl, hr⟩ := (requestsNull_iff s).1 hn
      rw [hl] at h1
      have h0 : s.owners = 0 := by simpa using h1
      refine ⟨by simp [h0], fun _ => rfl, fun _ => rfl⟩
    · have hl : s.locked = true := by
        by_cases hlk : s.locked = true
        · exact hlk
        · have hlf : s.locked = false := by revert hlk; cases s.locked <;> simp
          have hr : s.reqStack ≠ [] := by
            intro hc
            exact hn ((requestsNull_iff s).2 ⟨hlf, hc⟩)
          rw [h2 hr] at hlf
          cases hlf
      simp only [hn, if_false, Bool.false_eq_true]
      refine ⟨by simpa [hl] using h1, fun _ => hl, h3⟩
  | unlockL =>
    by_cases ho : s.owners = 0
    · simpa [mxStep, ho] using ⟨h1, h2, h3⟩
    · have hl : s.locked = true := by
        by_cases hlk : s.locked = true
        · exact hlk
        · simp [hlk] at h1; omega
      have how : s.owners = 1 := by simpa [hl] using h1
      simp only [mxStep, ho, if_false, mxUnlock]
      cases hq0 : s.queue with
      | cons f rest =>
        simp only [hq0, List.isEmpty_cons, if_false, popResume, Bool.false_eq_true]
        exact ⟨by simp [hl]; omega, fun _ => hl, fun _ => hl⟩
      | nil =>
        cases hr0 : s.reqStack with
        | nil =>
          simp only [hq0, hr0, List.isEmpty_nil, if_true]
          exact ⟨by simp [how], by simp [hr0], by simp [hq0]⟩
        | cons x xs =>
          simp only [hq0, hr0, List.isEmpty_nil, List.isEmpty_cons, if_true, if_false,
            makeQueue_eq, popResume, Bool.false_eq_true]
          cases hc : xs.reverse ++ [x] with
          | nil => simp at hc
          | cons g grest =>
            simp only [List.reverse_cons, hc]
            exact ⟨by simp [hl]; omega, by simp, fun _ => hl⟩

theorem mxRun_inv (ops : List MxOp) : MxInv (mxRun ops) := by
  have base : MxInv mxInit := by simp [MxInv, mxInit]
  rw [mxRun]
  induction ops using List.reverseRecOn with
  | nil => simpa using base
  | append_singleton l o ih =>
    rw [List.foldl_append]
    exact mxStep_inv _ o ih

/-- C4: in the sequential atomic model of `coro_mutex`, every reachable state has
at most one live Ownership token, and `unlock` on a locked state either leaves
the mutex observably unlocked (the `_requests` pointer back to null, no waiter
resumed) — exactly when no waiter is queued and no late request is pending — or
resumes exactly the earliest-enqueued waiter of the current drain epoch, handing
it the single ownership. -/
theorem c4_mutex_single_owner_fair_unlock :
    (∀ ops : List MxOp, MxInv (mxRun ops) ∧ (mxRun ops).owners ≤ 1)
    ∧ (∀ s : MxState, MxInv s → s.locked = true →
        (epochEarliest s = none
          ∧ mxUnlock s = (⟨false, [], [], 0⟩, none)
          ∧ requestsNull (mxUnlock s).1 = true)
        ∨ (∃ f, epochEarliest s = some f ∧ (mxUnlock s).2 = some f
            ∧ (mxUnlock s).1.owners = 1 ∧ MxInv (mxUnlock s).1)) := by
  constructor
  · intro ops
    have h := mxRun_inv ops
    refine ⟨h, ?_⟩
    obtain ⟨h1, -, -⟩ := h
    rw [h1]; split <;> omega
  · intro s hinv hl
    obtain ⟨h1, h2, h3⟩ := hinv
    have how : s.owners = 1 := by simpa [hl] using h1
    cases hq0 : s.queue with
    | cons f rest =>
      right
      refine ⟨f, ?_, ?_, ?_, ?_⟩
      · simp [epochEarliest, hq0]
      · simp [mxUnlock, hq0, popResume]
      · simp [mxUnlock, hq0, popResume, how]
      · refine ⟨?_, ?_, ?_⟩ <;> simp [mxUnlock, hq0, popResume, hl, how]
    | nil =>
      cases hr0 : s.reqStack with
      | nil =>
        left
        refine ⟨by simp [epochEarliest, hq0, hr0], ?_, ?_⟩
        · simp only [mxUnlock, hq0, hr0, List.isEmpty_nil, if_true]
          simp [hq0, hr0, how]
        · simp [mxUnlock, hq0, hr0, requestsNull]
      | cons x xs =>
        right
        cases hc : xs.reverse ++ [x] with
        | nil => simp at hc
        | cons g grest =>
          have hrev : s.reqStack.reverse = g :: grest := by
            rw [hr0, List.reverse_cons, hc]
          refine ⟨g, ?_, ?_, ?_, ?_⟩
          · simp [epochEarliest, hq0, hrev]
          · simp only [mxUnlock, hq0, hr0, List.isEmpty_nil, List.isEmpty_cons, if_true,
              if_false, makeQueue_eq, popResume, List.reverse_cons, hc, Bool.false_eq_true]
            rfl
          · simp only [mxUnlock, hq0, hr0, List.isEmpty_nil, List.isEmpty_cons, if_true,
              if_false, makeQueue_eq, popResume, List.reverse_cons, hc, Bool.false_eq_true]
            simp [how]
          · simp only [mxUnlock, hq0, hr0, List.isEmpty_nil, List.isEmpty_cons, if_true,
              if_false, makeQueue_eq, popResume, List.reverse_cons, hc, Bool.false_eq_true]
            exact ⟨by simp [hl]; omega, by simp, fun _ => hl⟩

theorem c4_mutex_single_owner_fair_unlock_witness :
    (MxInv (mxRun [MxOp.lockL 1, MxOp.lockL 2, MxOp.lockL 3, MxOp.unlockL])
      ∧ (mxRun [MxOp.lockL 1, MxOp.lockL 2, MxOp.lockL 3, MxOp.unlockL]).owners ≤ 1)
    ∧ ((epochEarliest ⟨true, [3, 2], [], 1⟩ = none
          ∧ mxUnlock ⟨true, [3, 2], [], 1⟩ = (⟨false, [], [], 0⟩, none)
          ∧ requestsNull (mxUnlock ⟨true, [3, 2], [], 1⟩).1 = true)
        ∨ (∃ f, epochEarliest ⟨true, [3, 2], [], 1⟩ = some f
            ∧ (mxUnlock ⟨true, [3, 2], [], 1⟩).2 = some f
            ∧ (mxUnlock ⟨true, [3, 2], [], 1⟩).1.owners = 1
            ∧ MxInv (mxUnlock ⟨true, [3, 2], [], 1⟩).1)) :=
  ⟨c4_mutex_single_owner_fair_unlock.1 [MxOp.lockL 1, MxOp.lockL 2, MxOp.lockL 3, MxOp.unlockL],
   c4_mutex_single_owner_fair_unlock.2 ⟨true, [3, 2], [], 1⟩ (by decide) (by decide)⟩

/-!
Part 3: `coro_basic_queue` (coro_queue.h).  The bounded ring (`limited_queue`) is
modelled as a FIFO list with a capacity, the parked-popper and parked-pusher
linked lists (`_pop_queue`, `_push_queue`) as FIFO lists of slot ids, and the
`_closed` exception pointer as an `Option Nat`.
-/

/-- State of one `coro_basic_queue` over `limited_queue` (coro_queue.h lines
234-238): ring contents front-first, capacity, parked poppers, parked pushers
(value and slot id), and the `_closed` exception. -/
structure QueueState (V : Type) where
  ring : List V
  cap : Nat
  popWait : List Nat
  pushWait : List (V × Nat)
  closed : Option Nat
deriving DecidableEq, Repr

/-- What `push` returns to its caller.  `pendingLambda` is the only `return`
statement in the function (the full-ring branch, coro_queue.h lines 103-109),
handing back a pending callback awaitable.  In the two remaining branches
control reaches the closing brace of the non-void function without any return
statement (lines 110-120), which is undefined behaviour in C++; `fallThrough`
records that no awaitable is produced. -/
inductive PushRet where
  | pendingLambda
  | fallThrough
deriving DecidableEq, Repr

/-- Embeds `coro_basic_queue::push` (coro_queue.h lines 99-120).  Returns the
state after the body ran, what the function returns, and the popper slot that was
resumed with the pushed value, if any (the `resm` prepared handle, dispatched
after the lock is released). -/
def coroPush {V : Type} (q : QueueState V) (v : V) : QueueState V × PushRet × Option Nat :=
  if q.ring.length ≥ q.cap then
    (q, .pendingLambda, none)
  else if q.ring.length = 0 then
    match q.popWait with
    | slot :: rest => ({ q with popWait := rest }, .fallThrough, some slot)
    | [] => ({ q with ring := q.ring ++ [v] }, .fallThrough, none)
  else
    ({ q with ring := q.ring ++ [v] }, .fallThrough, none)

/-- Embeds the awaited body of the lambda returned by the full-ring branch of
`push` (coro_queue.h lines 104-109): with a bound result the caller's slot (value
and result) is parked on the push-wait FIFO; with an unbound result nothing
happens. -/
def pushLambdaAwait {V : Type} (q : QueueState V) (v : V) (slot : Nat) (bound : Bool) :
    QueueState V :=
  if bound then { q with pushWait := q.pushWait ++ [(v, slot)] } else q

/-- What `pop` returns: a ready awaitable carrying a value, or the pending
callback awaitable of the empty-ring branch. -/
inductive PopRet (V : Type) where
  | pendingLambda
  | ready (v : V)
deriving DecidableEq, Repr

/-- Embeds `coro_basic_queue::pop2` (coro_queue.h lines 198-206): take the ring
front; if a pusher is parked, promote its value into the vacated slot and resume
it. -/
def pop2 {V : Type} (q : QueueState V) : QueueState V × PopRet V × Option Nat :=
  match q.ring with
  | [] => (q, .pendingLambda, none)
  | r :: rest =>
    match q.pushWait with
    | (w, sid) :: prest =>
      ({ q with ring := rest ++ [w], pushWait := prest }, .ready r, some sid)
    | [] => ({ q with ring := rest }, .ready r, none)

/-- Embeds `coro_basic_queue::pop` (coro_queue.h lines 127-144): on an empty ring
return the pending callback awaitable, otherwise `pop2`. -/
def coroPop {V : Type} (q : QueueState V) : QueueState V × PopRet V × Option Nat :=
  if q.ring.length = 0 then (q, .pendingLambda, none) else pop2 q

/-- Effect of awaiting the lambda returned by the empty-ring branch of `pop`
(coro_queue.h lines 131-140): with an unbound result nothing happens; if the
queue is closed the popper is failed immediately with the stored exception;
otherwise the popper's result is parked on the pop-wait FIFO. -/
inductive PopAwaitEff where
  | noEffect
  | failedWith (slot e : Nat)
  | parked (slot : Nat)
deriving DecidableEq, Repr

/-- Embeds the awaited body of the lambda returned by the empty-ring branch of
`pop` (coro_queue.h lines 131-140). -/
def popLambdaAwait {V : Type} (q : QueueState V) (slot : Nat) (bound : Bool) :
    QueueState V × PopAwaitEff :=
  if bound then
    match q.closed with
    | some e => (q, .failedWith slot e)
    | none => ({ q with popWait := q.popWait ++ [slot] }, .parked slot)
  else (q, .noEffect)

/-- Embeds `coro_basic_queue::set_closed` (coro_queue.h lines 161-176).  The
body executes `_closed = std::move(e); if (!e) return;` — after the move the
local argument `e` is a null `exception_ptr` (moved-from `std::exception_ptr` is
null on mainstream standard libraries), so the test takes the early-return branch
for every argument and the drain loop below it is dead code.  Returns the new
state and the list of popper slots that were failed with the stored exception. -/
def setClosed {V : Type} (q : QueueState V) (e : Option Nat) : QueueState V × List Nat :=
  let q1 : QueueState V := { q with closed := e }
  let eAfterMove : Option Nat := none
  match eAfterMove with
  | none => (q1, [])
  | some _ => ({ q1 with popWait := [] }, q1.popWait)

/-- C5 (code evaluated against the claim): `set_closed` records the new closed
state — and an empty error does re-open — but it never fails a parked popper:
for every queue and every argument the parked-popper list is returned unchanged
and the list of poppers failed is empty, because the function tests the argument
only after moving from it. -/
theorem c5_set_closed_skips_parked_poppers (q : QueueState Nat) (e : Option Nat) :
    (setClosed q e).1.closed = e
    ∧ (setClosed q e).1.popWait = q.popWait
    ∧ (setClosed q e).2 = []
    ∧ setClosed { q with popWait := [5] } (some 9)
        = ({ q with popWait := [5], closed := some 9 }, []) := by
  exact ⟨rfl, rfl, rfl, rfl⟩

/-- C6 (code evaluated against the claim): when the ring is full, `push` returns
the pending callback awaitable whose await parks the caller on the push-wait
FIFO; but in both non-full branches — direct hand-off to a parked popper, and
enqueue into the ring — control falls off the end of the non-void function
without returning the immediately-completed future the claim describes. -/
theorem c6_push_falls_off_end (q : QueueState Nat) (v : Nat) (slot : Nat) :
    (q.ring.length ≥ q.cap →
        coroPush q v = (q, .pendingLambda, none)
        ∧ pushLambdaAwait q v slot true
            = { q with pushWait := q.pushWait ++ [(v, slot)] })
    ∧ (q.ring.length < q.cap → (coroPush q v).2.1 = PushRet.fallThrough)
    ∧ coroPush (⟨[], 2, [], [], none⟩ : QueueState Nat) 7
        = (⟨[7], 2, [], [], none⟩, .fallThrough, none)
    ∧ coroPush (⟨[], 2, [8], [], none⟩ : QueueState Nat) 7
        = (⟨[], 2, [], [], none⟩, .fallThrough, some 8) := by
  refine ⟨?_, ?_, rfl, rfl⟩
  · intro hfull
    exact ⟨by simp [coroPush, hfull], rfl⟩
  · intro hlt
    have hn : ¬ q.ring.length ≥ q.cap := by omega
    simp only [coroPush, hn, if_false]
    by_cases h0 : q.ring.length = 0
    · simp only [h0, if_true]
      cases q.popWait <;> rfl
    · simp [h0]

theorem c6_push_falls_off_end_witness :
    ((⟨[1, 2], 2, [], [], none⟩ : QueueState Nat).ring.length ≥ 2 →
        coroPush (⟨[1, 2], 2, [], [], none⟩ : QueueState Nat) 7
          = (⟨[1, 2], 2, [], [], none⟩, .pendingLambda, none)
        ∧ pushLambdaAwait (⟨[1, 2], 2, [], [], none⟩ : QueueState Nat) 7 4 true
            = { (⟨[1, 2], 2, [], [], none⟩ : QueueState Nat) with pushWait := [] ++ [(7, 4)] })
    ∧ ((⟨[1, 2], 2, [], [], none⟩ : QueueState Nat).ring.length < 2 →
        (coroPush (⟨[1, 2], 2, [], [], none⟩ : QueueState Nat) 7).2.1 = PushRet.fallThrough)
    ∧ coroPush (⟨[], 2, [], [], none⟩ : QueueState Nat) 7
        = (⟨[7], 2, [], [], none⟩, .fallThrough, none)
    ∧ coroPush (⟨[], 2, [8], [], none⟩ : QueueState Nat) 7
        = (⟨[], 2, [], [], none⟩, .fallThrough, some 8) :=
  c6_push_falls_off_end ⟨[1, 2], 2, [], [], none⟩ 7 4

/-!
Part 4: `multi_lock<n>` (coro_mutex.h lines 202-323).  The mutex array is
abstracted by two predicates on indices: `present idx` models `locking[idx] !=
nullptr` and `avail idx` models `locking[idx]->try_lock()` succeeding.  The loop
of `lock_others` is written with an explicit fuel equal to the remaining loop
iterations (`n - i`), so the function computes structurally.
-/

/-- Embeds the loop of `multi_lock::lock_others` (coro_mutex.h lines 291-311):
for `i` from 1 while `i < n`, try-lock `locking[(i + first) % n]`; on the first
failure release the stored ownerships and return the loop counter `i`; when the
loop completes return `n`.  `acc` records the indices whose `try_lock` succeeded
during the pass; note that in the source each such ownership token is a
block-local (`auto o = locking[idx]->try_lock()`) released again at the end of
its loop iteration — only the ownership of `locking[first]` stored by
`lock_complete` persists — so `acc` is bookkeeping of which mutexes the pass
found available, not of tokens still held, and on failure the explicit
release-all of `owns` plus the block-scoped releases leave nothing held (the
empty list).  `fuel` counts the remaining iterations, i.e. `n - i`. -/
def lockOthersGo (n first : Nat) (present avail : Nat → Bool) :
    Nat → Nat → List Nat → Nat × List Nat
  | 0, _, acc => (n, acc)
  | fuel + 1, i, acc =>
    let idx := (i + first) % n
    if present idx then
      if avail idx then lockOthersGo n first present avail fuel (i + 1) (acc ++ [idx])
      else (i, [])
    else lockOthersGo n first present avail fuel (i + 1) acc

/-- Outcome of `multi_lock::lock_complete` (coro_mutex.h lines 266-280): either
`lock_others` returned `n` — every rotation position was probed available
(`allLocked` carries the probed indices; per the note on `lockOthersGo` the
source retains only the ownership of `locking[first]`, the probe tokens having
already been released) — or `first` was set to the returned value and
`lock_first` re-suspended on `locking[newFirst]` (lines 286-289). -/
inductive MLOutcome where
  | allLocked (owns : List Nat)
  | suspendOn (newFirst : Nat)
deriving DecidableEq, Repr

/-- Embeds `multi_lock::lock_complete` (coro_mutex.h lines 266-280): store the
just-acquired ownership of `locking[first]`, run `lock_others`; if it returns
`x != n`, set `first := x` and re-suspend on `locking[first]` via `lock_first`. -/
def lockComplete (n first : Nat) (present avail : Nat → Bool) : MLOutcome :=
  let r := lockOthersGo n first present avail (n - 1) 1 [first]
  if r.1 ≠ n then .suspendOn r.1 else .allLocked r.2

/-- C7 counterexample: with three mutexes, rotation start 2, and mutex 0 held by
another task, the first try-lock failure happens at mutex index `(1 + 2) % 3 = 0`,
yet `lock_complete` sets the rotation start to the loop offset 1 and re-suspends
on mutex index 1 — not on the failed mutex 0. -/
theorem c7_resuspend_wrong_mutex_cex :
    lockComplete 3 2 (fun _ => true) (fun k => decide (k ≠ 0)) = .suspendOn 1
    ∧ (1 + 2) % 3 = 0
    ∧ (1 : Nat) ≠ 0 := by
  decide

theorem lockOthersGo_fail (n first : Nat) (present avail : Nat → Bool) (i : Nat)
    (hi : i < n)
    (hfp : present ((i + first) % n) = true) (hfa : avail ((i + first) % n) = false) :
    ∀ fuel j acc, fuel = n - j → j ≤ i →
      (∀ k, j ≤ k → k < i → present ((k + first) % n) = true →
        avail ((k + first) % n) = true) →
      lockOthersGo n first present avail fuel j acc = (i, []) := by
  intro fuel
  induction fuel with
  | zero =>
    intro j acc hf hj hbef
    omega
  | succ f ih =>
    intro j acc hf hj hbef
    by_cases hji : j = i
    · subst hji
      simp [lockOthersGo, hfp, hfa]
    · have hjlt : j < i := by omega
      by_cases hp : present ((j + first) % n) = true
      · have ha := hbef j le_rfl hjlt hp
        simp only [lockOthersGo, hp, ha, if_true]
        exact ih (j + 1) (acc ++ [(j + first) % n]) (by omega) (by omega)
          (fun k hk1 hk2 => hbef k (by omega) hk2)
      · simp only [lockOthersGo, hp, Bool.false_eq_true, if_false]
        exact ih (j + 1) acc (by omega) (by omega)
          (fun k hk1 hk2 => hbef k (by omega) hk2)

/-- C7 (amended): after acquiring the current first mutex, the remaining mutexes
are try-locked in rotation order `(i + first) % n` for `i = 1, …, n-1`; on the
first try-lock failure — which happens at rotation offset `i`, i.e. at mutex
index `(i + first) % n` — all ownerships acquired so far are released, the
rotation start index is set to the offset `i`, and the lock re-suspends
asynchronously on `locking[i]`.  The re-suspension target equals the failed
mutex only when the previous rotation start was 0. -/
theorem c7_lock_others_offset (n first : Nat) (present avail : Nat → Bool) (i : Nat)
    (h1 : 1 ≤ i) (hi : i < n)
    (hbef : ∀ k, 1 ≤ k → k < i → present ((k + first) % n) = true →
      avail ((k + first) % n) = true)
    (hfp : present ((i + first) % n) = true) (hfa : avail ((i + first) % n) = false) :
    lockOthersGo n first present avail (n - 1) 1 [first] = (i, [])
    ∧ lockComplete n first present avail = MLOutcome.suspendOn i := by
  have hgo := lockOthersGo_fail n first present avail i hi hfp hfa (n - 1) 1 [first]
    (by omega) h1 hbef
  refine ⟨hgo, ?_⟩
  have hne : i ≠ n := by omega
  simp [lockComplete, hgo, hne]

theorem c7_lock_others_offset_witness :
    lockOthersGo 4 2 (fun _ => true) (fun k => decide (k ≠ 3)) 3 1 [2] = (1, [])
    ∧ lockComplete 4 2 (fun _ => true) (fun k => decide (k ≠ 3))
        = MLOutcome.suspendOn 1 :=
  c7_lock_others_offset 4 2 (fun _ => true) (fun k => decide (k ≠ 3)) 1
    (by decide) (by decide)
    (fun k hk1 hk2 _ => absurd hk2 (by omega))
    (by decide) (by decide)

/-!
Part 5: `generic_scheduler` and `scheduler` (coro_scheduler.h).  The heap vector
`_heap` is a list of items keyed by `(timestamp, ident)`; the stored result
capability is left abstract (firing an item stands for handing its Result to the
executor).  `compare(a,b) = a.timestamp > b.timestamp` makes it a min-heap on
timestamps.  `std::push_heap` is modelled by the hole-percolation sift-up every
mainstream standard library implements (the element movement is fully determined
by the comparisons, so the model is implementation-independent); the in-source
sift loops of `update_heap_element` (coro_scheduler.h lines 100-136) are
modelled by the canonical sift-up / sift-down they spell out.  `std::pop_heap`,
whose re-heapified layout the standard does *not* determine, is modelled as
libstdc++ implements it (`__pop_heap`/`__adjust_heap` in bits/stl_heap.h): move
the back element out as the value, move the root into the back slot, percolate
the hole at the root down to a leaf always descending into the smaller child,
and finally sift the saved value up from the leaf hole (`__push_heap`).  The
layout — and with it the firing order among equal deadlines — depends on this
choice; which element is popped (the root) does not.  All loops are written with
explicit fuel so that they compute structurally.
-/

/-- One `HeapItem` (coro_scheduler.h lines 87-91) without the abstract result
payload: deadline and identity. -/
structure SchedItem where
  ts : Nat
  ident : Nat
deriving DecidableEq, Repr

/-- Heap access with a default, standing for `_heap[i]`. -/
def hget (l : List SchedItem) (i : Nat) : SchedItem :=
  l.getD i ⟨0, 0⟩

/-- Exchange of two heap positions (`std::swap(_heap[i], _heap[j])`). -/
def hswap (l : List SchedItem) (i j : Nat) : List SchedItem :=
  (l.set i (hget l j)).set j (hget l i)

theorem length_hswap (l : List SchedItem) (i j : Nat) :
    (hswap l i j).length = l.length := by
  simp [hswap]

theorem hget_set_eq (l : List SchedItem) (i : Nat) (a : SchedItem) (h : i < l.length) :
    hget (l.set i a) i = a := by
  have hlen : i < (l.set i a).length := by simpa using h
  rw [hget, List.getD_eq_getElem _ _ hlen]
  exact List.getElem_set_self (by simpa using h)

theorem hget_set_ne (l : List SchedItem) (i j : Nat) (a : SchedItem) (hne : i ≠ j) :
    hget (l.set i a) j = hget l j := by
  by_cases hj : j < l.length
  · have hj2 : j < (l.set i a).length := by simpa using hj
    rw [hget, List.getD_eq_getElem _ _ hj2, hget, List.getD_eq_getElem _ _ hj]
    exact List.getElem_set_ne hne _
  · have h1 : l.length ≤ j := by omega
    rw [hget, hget, List.getD_eq_default, List.getD_eq_default]
    · exact h1
    · simpa using h1

theorem hget_hswap_snd (l : List SchedItem) (i j : Nat) (hj : j < l.length) :
    hget (hswap l i j) j = hget l i := by
  rw [hswap, hget_set_eq]
  simpa using hj

theorem hget_hswap_fst (l : List SchedItem) (i j : Nat) (hi : i < l.length) :
    hget (hswap l i j) i = hget l j := by
  by_cases hij : i = j
  · subst hij
    rw [hget_hswap_snd l i i hi]
  · rw [hswap, hget_set_ne _ _ _ _ (fun h => hij h.symm), hget_set_eq _ _ _ hi]

theorem hget_hswap_other (l : List SchedItem) (i j k : Nat) (h1 : k ≠ i) (h2 : k ≠ j) :
    hget (hswap l i j) k = hget l k := by
  rw [hswap, hget_set_ne _ _ _ _ (fun h => h2 h.symm), hget_set_ne _ _ _ _ (fun h => h1 h.symm)]

theorem hget_take (l : List SchedItem) (m k : Nat) (h : k < m) :
    hget (l.take m) k = hget l k := by
  by_cases hk : k < l.length
  · have hk2 : k < (l.take m).length := by simp; omega
    rw [hget, List.getD_eq_getElem _ _ hk2, hget, List.getD_eq_getElem _ _ hk]
    exact List.getElem_take ..
  · have hge : l.length ≤ k := by omega
    rw [hget, hget, List.getD_eq_default, List.getD_eq_default]
    · exact hge
    · simp; omega

theorem hget_append_left (l : List SchedItem) (x : SchedItem) (k : Nat) (h : k < l.length) :
    hget (l ++ [x]) k = hget l k := by
  have h2 : k < (l ++ [x]).length := by simp; omega
  rw [hget, List.getD_eq_getElem _ _ h2, hget, List.getD_eq_getElem _ _ h]
  exact List.getElem_append_left ..

theorem hget_append_self (l : List SchedItem) (x : SchedItem) :
    hget (l ++ [x]) l.length = x := by
  have h2 : l.length < (l ++ [x]).length := by simp
  rw [hget, List.getD_eq_getElem _ _ h2]
  simp

theorem hget_mem (l : List SchedItem) (k : Nat) (h : k < l.length) : hget l k ∈ l := by
  rw [hget, List.getD_eq_getElem _ _ h]
  exact l.getElem_mem h

theorem hget_cons_zero (b : SchedItem) (t : List SchedItem) : hget (b :: t) 0 = b := rfl

theorem hget_cons_succ (b : SchedItem) (t : List SchedItem) (n : Nat) :
    hget (b :: t) (n + 1) = hget t n := rfl

theorem count_set_eqn (x a : SchedItem) :
    ∀ (l : List SchedItem) (i : Nat), i < l.length →
      (l.set i a).count x + (if hget l i = x then 1 else 0)
        = l.count x + (if a = x then 1 else 0) := by
  intro l
  induction l with
  | nil => intro i h; simp at h
  | cons b t ih =>
    intro i h
    cases i with
    | zero =>
      simp only [List.set, List.count_cons, hget_cons_zero, beq_iff_eq]
      omega
    | succ n =>
      have hn : n < t.length := by simpa using h
      have := ih n hn
      simp only [List.set, List.count_cons, hget_cons_succ, beq_iff_eq] at *
      omega

theorem hswap_perm (l : List SchedItem) (i j : Nat) (hi : i < l.length) (hj : j < l.length) :
    List.Perm (hswap l i j) l := by
  rw [List.perm_iff_count]
  intro x
  have h1 := count_set_eqn x (hget l j) l i hi
  have h2 := count_set_eqn x (hget l i) (l.set i (hget l j)) j (by simpa using hj)
  have hx : hget (l.set i (hget l j)) j = hget l j := by
    by_cases hij : i = j
    · subst hij; exact hget_set_eq _ _ _ hi
    · exact hget_set_ne _ _ _ _ hij
  rw [hx] at h2
  have h3 : (hswap l i j).count x + (if hget l j = x then 1 else 0)
      = l.count x + (if hget l j = x then 1 else 0) := by
    rw [hswap]
    omega
  omega

/-- Sift-up loop (the `shift_up` branch of `update_heap_element`,
coro_scheduler.h lines 104-114, which is also the canonical `std::push_heap`
re-heapify): while the position has a parent whose timestamp is larger, swap
with the parent.  `fuel` bounds the iterations; `pos` iterations always
suffice. -/
def siftUpGo : Nat → List SchedItem → Nat → List SchedItem
  | 0, l, _ => l
  | fuel + 1, l, pos =>
    if pos = 0 then l
    else
      if (hget l ((pos - 1) / 2)).ts > (hget l pos).ts then
        siftUpGo fuel (hswap l ((pos - 1) / 2) pos) ((pos - 1) / 2)
      else l

/-- Sift-up from `pos` with sufficient fuel. -/
def siftUp (l : List SchedItem) (pos : Nat) : List SchedItem :=
  siftUpGo pos l pos

/-- The child chosen by one sift-down step (the `largest` selection of
`update_heap_element`, coro_scheduler.h lines 116-127, with
`compare(a,b) = a.timestamp > b.timestamp`). -/
def minChild (l : List SchedItem) (pos : Nat) : Nat :=
  let n := l.length
  let lft := 2 * pos + 1
  let rgt := 2 * pos + 2
  let m1 := if lft < n ∧ (hget l pos).ts > (hget l lft).ts then lft else pos
  if rgt < n ∧ (hget l m1).ts > (hget l rgt).ts then rgt else m1

/-- Sift-down loop (the else branch of `update_heap_element`, coro_scheduler.h
lines 115-135, which is also the canonical `std::pop_heap` re-heapify): swap
with the smaller child while it is strictly smaller. -/
def siftDownGo : Nat → List SchedItem → Nat → List SchedItem
  | 0, l, _ => l
  | fuel + 1, l, pos =>
    if minChild l pos ≠ pos then
      siftDownGo fuel (hswap l pos (minChild l pos)) (minChild l pos)
    else l

/-- Sift-down from `pos` with sufficient fuel. -/
def siftDown (l : List SchedItem) (pos : Nat) : List SchedItem :=
  siftDownGo l.length l pos

/-- The binary min-heap property of the `_heap` vector: every non-root entry is
at least its parent. -/
def IsMinHeap (l : List SchedItem) : Prop :=
  ∀ j, j < l.length → 0 < j → (hget l ((j - 1) / 2)).ts ≤ (hget l j).ts

instance (l : List SchedItem) : Decidable (IsMinHeap l) := by
  unfold IsMinHeap; infer_instance

/-- Heap except possibly at the edge into `i`, with the grandparent dominating
the children of `i`: the sift-up loop invariant. -/
def UpOk (l : List SchedItem) (i : Nat) : Prop :=
  (∀ j, j < l.length → 0 < j → j ≠ i → (hget l ((j - 1) / 2)).ts ≤ (hget l j).ts)
  ∧ (∀ j, j < l.length → (j - 1) / 2 = i → 0 < i → (hget l ((i - 1) / 2)).ts ≤ (hget l j).ts)

/-- Heap except possibly at the edges out of `i`, with the parent of `i`
dominating the children of `i`: the sift-down loop invariant. -/
def DownOk (l : List SchedItem) (i : Nat) : Prop :=
  (∀ j, j < l.length → 0 < j → (j - 1) / 2 ≠ i → (hget l ((j - 1) / 2)).ts ≤ (hget l j).ts)
  ∧ (∀ j, j < l.length → 0 < j → (j - 1) / 2 = i → 0 < i →
      (hget l ((i - 1) / 2)).ts ≤ (hget l j).ts)

theorem upok_swap (l : List SchedItem) (pos : Nat) (hpos : 0 < pos) (hlen : pos < l.length)
    (hcmp : (hget l pos).ts < (hget l ((pos - 1) / 2)).ts) (hok : UpOk l pos) :
    UpOk (hswap l ((pos - 1) / 2) pos) ((pos - 1) / 2) := by
  obtain ⟨h1, h2⟩ := hok
  have hplt : (pos - 1) / 2 < pos := by omega
  have hplen : (pos - 1) / 2 < l.length := by omega
  have hvp : hget (hswap l ((pos - 1) / 2) pos) ((pos - 1) / 2) = hget l pos :=
    hget_hswap_fst l _ pos hplen
  have hvpos : hget (hswap l ((pos - 1) / 2) pos) pos = hget l ((pos - 1) / 2) :=
    hget_hswap_snd l _ pos hlen
  have hother : ∀ k, k ≠ (pos - 1) / 2 → k ≠ pos →
      hget (hswap l ((pos - 1) / 2) pos) k = hget l k :=
    fun k hk1 hk2 => hget_hswap_other l _ pos k hk1 hk2
  have hlen2 : (hswap l ((pos - 1) / 2) pos).length = l.length := length_hswap ..
  constructor
  · intro j hj hj0 hjne
    rw [hlen2] at hj
    by_cases hjpos : j = pos
    · rw [hjpos, hvp, hvpos]
      omega
    · have hjv : hget (hswap l ((pos - 1) / 2) pos) j = hget l j := hother j hjne hjpos
      rw [hjv]
      by_cases hpar : (j - 1) / 2 = (pos - 1) / 2
      · rw [hpar, hvp]
        have := h1 j hj hj0 hjpos
        rw [hpar] at this
        omega
      · by_cases hpar2 : (j - 1) / 2 = pos
        · rw [hpar2, hvpos]
          exact h2 j hj hpar2 hpos
        · rw [hother _ hpar hpar2]
          exact h1 j hj hj0 hjpos
  · intro j hj hpar hp0
    rw [hlen2] at hj
    have hgne1 : ((pos - 1) / 2 - 1) / 2 ≠ (pos - 1) / 2 := by omega
    have hgne2 : ((pos - 1) / 2 - 1) / 2 ≠ pos := by omega
    rw [hother _ hgne1 hgne2]
    have hgp : (hget l (((pos - 1) / 2 - 1) / 2)).ts ≤ (hget l ((pos - 1) / 2)).ts :=
      h1 ((pos - 1) / 2) hplen hp0 (by omega)
    by_cases hjpos : j = pos
    · subst hjpos
      rw [hvpos]
      exact hgp
    · have hjp : j ≠ (pos - 1) / 2 := by omega
      rw [hother _ hjp hjpos]
      have hj0 : 0 < j := by omega
      have := h1 j hj hj0 hjpos
      rw [hpar] at this
      omega

theorem siftUpGo_heap : ∀ (fuel : Nat) (l : List SchedItem) (pos : Nat),
    pos ≤ fuel → pos < l.length → UpOk l pos → IsMinHeap (siftUpGo fuel l pos) := by
  intro fuel
  induction fuel with
  | zero =>
    intro l pos hf hlen hok
    have hpos : pos = 0 := by omega
    subst hpos
    intro j hj hj0
    exact hok.1 j hj hj0 (by omega)
  | succ f ih =>
    intro l pos hf hlen hok
    by_cases hpos : pos = 0
    · subst hpos
      simp only [siftUpGo, if_pos rfl]
      intro j hj hj0
      exact hok.1 j hj hj0 (by omega)
    · simp only [siftUpGo, if_neg hpos]
      by_cases hcmp : (hget l ((pos - 1) / 2)).ts > (hget l pos).ts
      · rw [if_pos hcmp]
        have hp0 : 0 < pos := by omega
        refine ih _ _ (by omega) ?_ (upok_swap l pos hp0 hlen (by omega) hok)
        rw [length_hswap]
        omega
      · rw [if_neg hcmp]
        intro j hj hj0
        by_cases hjpos : j = pos
        · subst hjpos; omega
        · exact hok.1 j hj hj0 hjpos

theorem minChild_spec (l : List SchedItem) (pos : Nat) :
    (minChild l pos = pos ∧
      (∀ k, (k = 2 * pos + 1 ∨ k = 2 * pos + 2) → k < l.length →
        (hget l pos).ts ≤ (hget l k).ts))
    ∨ ((minChild l pos = 2 * pos + 1 ∨ minChild l pos = 2 * pos + 2)
        ∧ minChild l pos < l.length
        ∧ (hget l (minChild l pos)).ts < (hget l pos).ts
        ∧ (∀ k, (k = 2 * pos + 1 ∨ k = 2 * pos + 2) → k < l.length →
            (hget l (minChild l pos)).ts ≤ (hget l k).ts)) := by
  simp only [minChild]
  by_cases c1 : 2 * pos + 1 < l.length ∧ (hget l pos).ts > (hget l (2 * pos + 1)).ts
  · rw [if_pos c1]
    by_cases c2 : 2 * pos + 2 < l.length ∧
        (hget l (2 * pos + 1)).ts > (hget l (2 * pos + 2)).ts
    · rw [if_pos c2]
      right
      refine ⟨Or.inr rfl, c2.1, by have := c1.2; have := c2.2; omega, ?_⟩
      intro k hk hklen
      rcases hk with hk | hk <;> subst hk
      · have := c2.2; omega
      · omega
    · rw [if_neg c2]
      right
      refine ⟨Or.inl rfl, c1.1, by have := c1.2; omega, ?_⟩
      intro k hk hklen
      rcases hk with hk | hk <;> subst hk
      · omega
      · have : ¬ (hget l (2 * pos + 1)).ts > (hget l (2 * pos + 2)).ts :=
          fun hb => c2 ⟨hklen, hb⟩
        omega
  · rw [if_neg c1]
    by_cases c2 : 2 * pos + 2 < l.length ∧ (hget l pos).ts > (hget l (2 * pos + 2)).ts
    · rw [if_pos c2]
      right
      refine ⟨Or.inr rfl, c2.1, by have := c2.2; omega, ?_⟩
      intro k hk hklen
      rcases hk with hk | hk <;> subst hk
      · have : ¬ (hget l pos).ts > (hget l (2 * pos + 1)).ts := fun hb => c1 ⟨hklen, hb⟩
        have := c2.2
        omega
      · omega
    · rw [if_neg c2]
      left
      refine ⟨rfl, ?_⟩
      intro k hk hklen
      rcases hk with hk | hk <;> subst hk
      · have : ¬ (hget l pos).ts > (hget l (2 * pos + 1)).ts := fun hb => c1 ⟨hklen, hb⟩
        omega
      · have : ¬ (hget l pos).ts > (hget l (2 * pos + 2)).ts := fun hb => c2 ⟨hklen, hb⟩
        omega

theorem downok_swap (l : List SchedItem) (pos c : Nat)
    (hposlen : pos < l.length) (hclen : c < l.length)
    (hchild : c = 2 * pos + 1 ∨ c = 2 * pos + 2)
    (hcts : (hget l c).ts < (hget l pos).ts)
    (hcmin : ∀ k, (k = 2 * pos + 1 ∨ k = 2 * pos + 2) → k < l.length →
      (hget l c).ts ≤ (hget l k).ts)
    (hok : DownOk l pos) : DownOk (hswap l pos c) c := by
  obtain ⟨h1, h2⟩ := hok
  have hcpos : pos < c := by omega
  have hparc : (c - 1) / 2 = pos := by omega
  have hvpos : hget (hswap l pos c) pos = hget l c := hget_hswap_fst l pos c hposlen
  have hvc : hget (hswap l pos c) c = hget l pos := hget_hswap_snd l pos c hclen
  have hother : ∀ k, k ≠ pos → k ≠ c → hget (hswap l pos c) k = hget l k :=
    fun k hk1 hk2 => hget_hswap_other l pos c k hk1 hk2
  have hlen2 : (hswap l pos c).length = l.length := length_hswap ..
  constructor
  · intro j hj hj0 hjne
    rw [hlen2] at hj
    by_cases hjc : j = c
    · rw [hjc, hparc, hvpos, hvc]
      omega
    · by_cases hjpos : j = pos
      · have hp0 : 0 < pos := by omega
        rw [hjpos, hvpos]
        have hppne : (pos - 1) / 2 ≠ pos := by omega
        have hppc : (pos - 1) / 2 ≠ c := by omega
        rw [hother _ hppne hppc]
        exact h2 c hclen (by omega) hparc hp0
      · rw [hother j hjpos hjc]
        by_cases hpj : (j - 1) / 2 = pos
        · rw [hpj, hvpos]
          exact hcmin j (by omega) hj
        · rw [hother _ hpj hjne]
          exact h1 j hj hj0 hpj
  · intro j hj hj0 hpar hc0
    rw [hlen2] at hj
    rw [hparc, hvpos]
    have hjgt : c < j := by omega
    rw [hother j (by omega) (by omega)]
    have := h1 j hj hj0 (by omega)
    rw [hpar] at this
    exact this

theorem siftDownGo_heap : ∀ (fuel : Nat) (l : List SchedItem) (pos : Nat),
    l.length ≤ fuel + pos → DownOk l pos → IsMinHeap (siftDownGo fuel l pos) := by
  intro fuel
  induction fuel with
  | zero =>
    intro l pos hf hok
    simp only [siftDownGo]
    intro j hj hj0
    exact hok.1 j hj hj0 (by omega)
  | succ f ih =>
    intro l pos hf hok
    simp only [siftDownGo]
    by_cases hne : minChild l pos ≠ pos
    · rw [if_pos hne]
      rcases minChild_spec l pos with ⟨heq, _⟩ | ⟨hchild, hclen, hcts, hcmin⟩
      · exact absurd heq hne
      · have hposlen : pos < l.length := by omega
        refine ih _ _ ?_ (downok_swap l pos (minChild l pos) hposlen hclen hchild hcts hcmin
          ⟨hok.1, hok.2⟩)
        rw [length_hswap]
        omega
    · rw [if_neg hne]
      rcases minChild_spec l pos with ⟨heq, hmin⟩ | ⟨hchild, _, _, _⟩
      · intro j hj hj0
        by_cases hpj : (j - 1) / 2 = pos
        · have := hmin j (by omega) hj
          rw [hpj]
          exact this
        · exact hok.1 j hj hj0 hpj
      · exact absurd (by omega : minChild l pos ≠ pos) hne

theorem siftUpGo_length : ∀ (fuel : Nat) (l : List SchedItem) (pos : Nat),
    (siftUpGo fuel l pos).length = l.length := by
  intro fuel
  induction fuel with
  | zero => intro l pos; rfl
  | succ f ih =>
    intro l pos
    simp only [siftUpGo]
    by_cases hpos : pos = 0
    · rw [if_pos hpos]
    · rw [if_neg hpos]
      by_cases hcmp : (hget l ((pos - 1) / 2)).ts > (hget l pos).ts
      · rw [if_pos hcmp, ih, length_hswap]
      · rw [if_neg hcmp]

theorem siftDownGo_length : ∀ (fuel : Nat) (l : List SchedItem) (pos : Nat),
    (siftDownGo fuel l pos).length = l.length := by
  intro fuel
  induction fuel with
  | zero => intro l pos; rfl
  | succ f ih =>
    intro l pos
    simp only [siftDownGo]
    by_cases hne : minChild l pos ≠ pos
    · rw [if_pos hne, ih, length_hswap]
    · rw [if_neg hne]

theorem siftUpGo_perm : ∀ (fuel : Nat) (l : List SchedItem) (pos : Nat), pos < l.length →
    List.Perm (siftUpGo fuel l pos) l := by
  intro fuel
  induction fuel with
  | zero => intro l pos _; exact List.Perm.refl l
  | succ f ih =>
    intro l pos hlen
    simp only [siftUpGo]
    by_cases hpos : pos = 0
    · rw [if_pos hpos]
    · rw [if_neg hpos]
      by_cases hcmp : (hget l ((pos - 1) / 2)).ts > (hget l pos).ts
      · rw [if_pos hcmp]
        exact (ih _ _ (by rw [length_hswap]; omega)).trans
          (hswap_perm l _ pos (by omega) hlen)
      · rw [if_neg hcmp]

theorem siftDownGo_perm : ∀ (fuel : Nat) (l : List SchedItem) (pos : Nat),
    List.Perm (siftDownGo fuel l pos) l := by
  intro fuel
  induction fuel with
  | zero => intro l pos; exact List.Perm.refl l
  | succ f ih =>
    intro l pos
    simp only [siftDownGo]
    by_cases hne : minChild l pos ≠ pos
    · rw [if_pos hne]
      rcases minChild_spec l pos with ⟨heq, _⟩ | ⟨hchild, hclen, _, _⟩
      · exact absurd heq hne
      · exact (ih _ _).trans (hswap_perm l pos (minChild l pos) (by omega) hclen)
    · rw [if_neg hne]

theorem siftUpGo_above : ∀ (fuel : Nat) (l : List SchedItem) (pos j : Nat), pos < j →
    hget (siftUpGo fuel l pos) j = hget l j := by
  intro fuel
  induction fuel with
  | zero => intro l pos j _; rfl
  | succ f ih =>
    intro l pos j hlt
    simp only [siftUpGo]
    by_cases hpos : pos = 0
    · rw [if_pos hpos]
    · rw [if_neg hpos]
      by_cases hcmp : (hget l ((pos - 1) / 2)).ts > (hget l pos).ts
      · rw [if_pos hcmp, ih _ _ _ (by omega)]
        exact hget_hswap_other l _ pos j (by omega) (by omega)
      · rw [if_neg hcmp]

theorem siftDownGo_last : ∀ (fuel : Nat) (l : List SchedItem) (pos : Nat),
    pos < l.length - 1 → (hget l pos).ts ≤ (hget l (l.length - 1)).ts →
    hget (siftDownGo fuel l pos) (l.length - 1) = hget l (l.length - 1) := by
  intro fuel
  induction fuel with
  | zero => intro l pos _ _; rfl
  | succ f ih =>
    intro l pos hpos hts
    simp only [siftDownGo]
    by_cases hne : minChild l pos ≠ pos
    · rw [if_pos hne]
      rcases minChild_spec l pos with ⟨heq, _⟩ | ⟨hchild, hclen, hcts, _⟩
      · exact absurd heq hne
      · have hcne : minChild l pos ≠ l.length - 1 := by
          intro hc
          rw [hc] at hcts
          omega
        have hposne : pos ≠ l.length - 1 := by omega
        have hlast : hget (hswap l pos (minChild l pos)) (l.length - 1) = hget l (l.length - 1) :=
          hget_hswap_other l pos (minChild l pos) _ (fun h => hposne h.symm)
            (fun h => hcne h.symm)
        have hlen2 : (hswap l pos (minChild l pos)).length = l.length := length_hswap ..
        have := ih (hswap l pos (minChild l pos)) (minChild l pos)
          (by rw [hlen2]; omega)
          (by
            rw [hlen2, hlast, hget_hswap_snd l pos (minChild l pos) hclen]
            omega)
        rw [hlen2] at this
        rw [this, hlast]
    · rw [if_neg hne]

theorem rootMin (l : List SchedItem) (hh : IsMinHeap l) :
    ∀ j, j < l.length → (hget l 0).ts ≤ (hget l j).ts := by
  intro j
  induction j using Nat.strong_induction_on with
  | _ j ih =>
    intro hj
    rcases Nat.eq_zero_or_pos j with h0 | hpos
    · rw [h0]
    · exact le_trans (ih ((j - 1) / 2) (by omega) (by omega)) (hh j hj hpos)

/-- Embeds `generic_scheduler::schedule_at` (coro_scheduler.h lines 30-33):
`_heap.push_back` then `std::push_heap`, i.e. sift the new last element up. -/
def scheduleAt (l : List SchedItem) (it : SchedItem) : List SchedItem :=
  siftUp (l ++ [it]) l.length

/-- The descent loop of libstdc++'s `__adjust_heap`: while the hole has both
children in the region (`hole < (len - 1) / 2`), copy the smaller child (the
right one on a tie, because the comparison `comp(second, second - 1)` is strict)
up into the hole and move the hole down to that child.  `fuel` bounds the
iterations; `L.length` suffices since the hole index strictly grows. -/
def holeDescend : Nat → List SchedItem → Nat → List SchedItem × Nat
  | 0, L, hole => (L, hole)
  | fuel + 1, L, hole =>
    if hole < (L.length - 1) / 2 then
      let sc0 := 2 * (hole + 1)
      let sc := if (hget L sc0).ts > (hget L (sc0 - 1)).ts then sc0 - 1 else sc0
      holeDescend fuel (L.set hole (hget L sc)) sc
    else (L, hole)

/-- The single-child special case of `__adjust_heap`: when the region length is
even and the hole stopped at the unique node with exactly one child (index
`(len - 2) / 2`, whose only child is the last slot `len - 1`), copy that child
up and move the hole onto it.  The `2 ≤ L.length` conjunct renders in `Nat` the
source's signed comparison `secondChild == (len - 2) / 2`, which cannot hold for
`len = 0` (the right-hand side is negative). -/
def holeLastStep (L : List SchedItem) (hole : Nat) : List SchedItem × Nat :=
  if L.length % 2 = 0 ∧ 2 ≤ L.length ∧ hole = (L.length - 2) / 2 then
    (L.set hole (hget L (2 * (hole + 1) - 1)), 2 * (hole + 1) - 1)
  else (L, hole)

/-- The final `__push_heap` call of `__adjust_heap` with `topIndex = 0`: sift
the saved value up from the leaf hole, copying strictly larger parents down,
and write the value into the hole where the ascent stops. -/
def holeAscend : Nat → List SchedItem → Nat → SchedItem → List SchedItem
  | 0, L, hole, v => L.set hole v
  | fuel + 1, L, hole, v =>
    if 0 < hole ∧ (hget L ((hole - 1) / 2)).ts > v.ts then
      holeAscend fuel (L.set hole (hget L ((hole - 1) / 2))) ((hole - 1) / 2) v
    else L.set hole v

/-- libstdc++'s `__adjust_heap(first, holeIndex = 0, len, value)`: percolate the
root hole to a leaf, then sift `value` up from there.  `L` is the adjusted
region (in `remove_first`, the first `len - 1` slots of the heap; slot 0 is the
hole, its leftover content never read before being overwritten). -/
def adjustHeap (L : List SchedItem) (value : SchedItem) : List SchedItem :=
  let d := holeDescend L.length L 0
  let s := holeLastStep d.1 d.2
  holeAscend s.2 s.1 s.2 value

/-- Embeds `generic_scheduler::remove_first` (coro_scheduler.h lines 40-48):
`std::pop_heap` followed by reading and popping the back; an empty heap yields
the default-constructed (empty) result.  `std::pop_heap` is modelled after
libstdc++ (`__pop_heap`): the back element is moved out as the value, the root
is moved into the back slot (whence `pop_back` fires it), and the remaining
prefix of length `len - 1` is re-heapified by `__adjust_heap` — the hole left
at the root percolates down to a leaf and the saved back value is sifted up
from there. -/
def removeFirst (l : List SchedItem) : Option SchedItem × List SchedItem :=
  match l with
  | [] => (none, [])
  | _ :: _ =>
    (some (hget l 0), adjustHeap (l.take (l.length - 1)) (hget l (l.length - 1)))

/-- Embeds `generic_scheduler::update_heap_element` (coro_scheduler.h lines
100-136): write the new value and sift up when it shrank, down otherwise. -/
def updateHeapElement (l : List SchedItem) (pos : Nat) (nv : SchedItem) : List SchedItem :=
  if (hget l pos).ts > nv.ts then siftUp (l.set pos nv) pos
  else siftDown (l.set pos nv) pos

/-- The linear identity scan of `remove_by_ident` (coro_scheduler.h lines
51-64): index of the first slot with the given identity. -/
def findIdent : List SchedItem → Nat → Option Nat
  | [], _ => none
  | x :: rest, id => if x.ident = id then some 0 else (findIdent rest id).map (· + 1)

/-- Embeds `generic_scheduler::remove_by_ident` (coro_scheduler.h lines 49-66):
take the result out of the first matching slot, then close the hole — pop the
root when it is position 0, drop the back when it is the last position, and
otherwise move the back element into the hole via `update_heap_element` and
`pop_back`. -/
def removeByIdent (l : List SchedItem) (id : Nat) : Option SchedItem × List SchedItem :=
  match findIdent l id with
  | none => (none, l)
  | some i =>
    if i = 0 then (some (hget l 0), (removeFirst l).2)
    else if i = l.length - 1 then (some (hget l i), l.take (l.length - 1))
    else (some (hget l i),
      (updateHeapElement l i (hget l (l.length - 1))).take (l.length - 1))

/-- Embeds the loop of `generic_scheduler::set_time` (coro_scheduler.h lines
69-79): every slot whose identity matches is updated in place to the new
timestamp (the source loop does not break after a match). -/
def setTimeGo (id tp : Nat) : Nat → List SchedItem → Nat → List SchedItem
  | 0, l, _ => l
  | fuel + 1, l, i =>
    setTimeGo id tp fuel
      (if (hget l i).ident = id then updateHeapElement l i ⟨tp, id⟩ else l) (i + 1)

/-- Embeds `generic_scheduler::set_time` (coro_scheduler.h lines 69-79). -/
def setTime (l : List SchedItem) (id tp : Nat) : List SchedItem :=
  setTimeGo id tp l.length l 0

/-- Embeds `generic_scheduler::get_first_scheduled_time` (lines 35-38). -/
def getFirstScheduledTime (l : List SchedItem) : Option Nat :=
  match l with
  | [] => none
  | _ :: _ => some (hget l 0).ts

/-- One firing iteration of `scheduler::run_thread` (coro_scheduler.h lines
360-382): with `now` the sampled clock, the driver pops and fires the earliest
item only when `now > tm`; otherwise it waits and nothing fires. -/
def runThreadStep (now : Nat) (l : List SchedItem) : Option (SchedItem × List SchedItem) :=
  match getFirstScheduledTime l with
  | none => none
  | some tm =>
    if now > tm then
      match removeFirst l with
      | (some x, rest) => some (x, rest)
      | (none, _) => none
    else none

/-- Fire the earliest sleeper repeatedly until the heap is drained. -/
def drainGo : Nat → List SchedItem → List SchedItem
  | 0, _ => []
  | fuel + 1, l =>
    match removeFirst l with
    | (none, _) => []
    | (some x, rest) => x :: drainGo fuel rest

/-- The complete firing order of the driver on a heap. -/
def drainHeap (l : List SchedItem) : List SchedItem :=
  drainGo l.length l

theorem take_last (l : List SchedItem) (h : l ≠ []) :
    l.take (l.length - 1) ++ [hget l (l.length - 1)] = l := by
  have h1 : l.length - 1 < l.length := by
    cases l with
    | nil => simp at h
    | cons a t => simp
  have h2 : hget l (l.length - 1) = l.getLast h := by
    rw [hget, List.getD_eq_getElem _ _ h1, List.getLast_eq_getElem l h]
  rw [h2, ← List.dropLast_eq_take, List.dropLast_append_getLast h]

theorem take_heap (l : List SchedItem) (m : Nat) (hh : IsMinHeap l) :
    IsMinHeap (l.take m) := by
  intro j hj hj0
  have hjm : j < m := by simp at hj; omega
  have hjl : j < l.length := by simp at hj; omega
  rw [hget_take _ _ _ hjm, hget_take _ _ _ (by omega)]
  exact hh j hjl hj0

theorem scheduleAt_heap (l : List SchedItem) (it : SchedItem) (hh : IsMinHeap l) :
    IsMinHeap (scheduleAt l it) := by
  rw [scheduleAt, siftUp]
  apply siftUpGo_heap _ _ _ (le_refl _) (by simp)
  constructor
  · intro j hj hj0 hjne
    simp at hj
    have hjl : j < l.length := by omega
    rw [hget_append_left _ _ _ hjl, hget_append_left _ _ _ (by omega)]
    exact hh j hjl hj0
  · intro j hj hpar _
    simp at hj
    omega

theorem scheduleAt_perm (l : List SchedItem) (it : SchedItem) :
    List.Perm (scheduleAt l it) (it :: l) := by
  rw [scheduleAt, siftUp]
  exact (siftUpGo_perm _ _ _ (by simp)).trans (List.perm_append_singleton it l)

theorem mem_exists_hget (l : List SchedItem) (y : SchedItem) (h : y ∈ l) :
    ∃ k, k < l.length ∧ hget l k = y := by
  obtain ⟨i, hi, hy⟩ := List.mem_iff_getElem.mp h
  exact ⟨i, hi, by rw [hget, List.getD_eq_getElem _ _ hi]; exact hy⟩

/-- Heap-with-a-hole invariant of `__adjust_heap`: every parent edge not
involving the hole `p` is a heap edge, and the children of the hole are
dominated by the hole's parent (vacuously at the root). -/
def HoleOk (L : List SchedItem) (p : Nat) : Prop :=
  (∀ j, j < L.length → 0 < j → j ≠ p → (j - 1) / 2 ≠ p →
    (hget L ((j - 1) / 2)).ts ≤ (hget L j).ts)
  ∧ (∀ j, j < L.length → 0 < j → (j - 1) / 2 = p → 0 < p →
      (hget L ((p - 1) / 2)).ts ≤ (hget L j).ts)

/-- Copying a child `c` of the hole up into the hole preserves the invariant
with the hole moved down to `c`, provided `c` is a weakly smaller child. -/
theorem holeok_copy_step (L : List SchedItem) (hole c : Nat)
    (hhl : hole < L.length) (hcl : c < L.length)
    (hchild : c = 2 * hole + 1 ∨ c = 2 * hole + 2)
    (hsib : ∀ o, (o = 2 * hole + 1 ∨ o = 2 * hole + 2) → o < L.length →
      (hget L c).ts ≤ (hget L o).ts)
    (hok : HoleOk L hole) : HoleOk (L.set hole (hget L c)) c := by
  obtain ⟨h1, h2⟩ := hok
  have hhc : hole < c := by omega
  have hparc : (c - 1) / 2 = hole := by omega
  constructor
  · intro j hj hj0 hjne hpjne
    rw [List.length_set] at hj
    by_cases hjh : j = hole
    · have hh0 : 0 < hole := by omega
      have hne1 : hole ≠ (hole - 1) / 2 := by omega
      rw [hjh, hget_set_eq _ _ _ hhl, hget_set_ne _ _ _ _ hne1]
      exact h2 c hcl (by omega) hparc hh0
    · by_cases hpj : (j - 1) / 2 = hole
      · rw [hpj, hget_set_eq _ _ _ hhl,
          hget_set_ne _ _ _ _ (fun he => hjh he.symm)]
        exact hsib j (by omega) hj
      · rw [hget_set_ne _ _ _ _ (fun he => hpj he.symm),
          hget_set_ne _ _ _ _ (fun he => hjh he.symm)]
        exact h1 j hj hj0 hjh hpj
  · intro j hj hj0 hpj hc0
    rw [List.length_set] at hj
    have hjgt : c < j := by omega
    have hjneh : j ≠ hole := by omega
    rw [hparc, hget_set_eq _ _ _ hhl, hget_set_ne _ _ _ _ (fun he => hjneh he.symm)]
    have := h1 j hj hj0 hjneh (by omega)
    rw [hpj] at this
    exact this

/-- The descent loop restores the invariant at the final hole, stops only when
the hole no longer has two children, does not shrink the hole index, preserves
the length, and preserves the multiset up to the content of the hole. -/
theorem holeDescend_spec : ∀ (fuel : Nat) (L : List SchedItem) (hole : Nat),
    L.length ≤ fuel + hole → hole < L.length → HoleOk L hole →
    (holeDescend fuel L hole).1.length = L.length
    ∧ hole ≤ (holeDescend fuel L hole).2
    ∧ (holeDescend fuel L hole).2 < L.length
    ∧ ¬((holeDescend fuel L hole).2 < (L.length - 1) / 2)
    ∧ HoleOk (holeDescend fuel L hole).1 (holeDescend fuel L hole).2
    ∧ (∀ x, (holeDescend fuel L hole).1.count x
          + (if hget L hole = x then 1 else 0)
        = L.count x
          + (if hget (holeDescend fuel L hole).1 (holeDescend fuel L hole).2 = x
             then 1 else 0)) := by
  intro fuel
  induction fuel with
  | zero =>
    intro L hole hf hlt hok
    exact ⟨rfl, le_refl _, hlt, by show ¬(hole < (L.length - 1) / 2); omega,
      hok, fun x => rfl⟩
  | succ f ih =>
    intro L hole hf hlt hok
    by_cases hguard : hole < (L.length - 1) / 2
    · have hc1 : 2 * hole + 1 < L.length := by omega
      have hc2 : 2 * hole + 2 < L.length := by omega
      have e1 : 2 * (hole + 1) - 1 = 2 * hole + 1 := by omega
      have e2 : 2 * (hole + 1) = 2 * hole + 2 := by omega
      by_cases hcmp : (hget L (2 * (hole + 1))).ts > (hget L (2 * (hole + 1) - 1)).ts
      · -- the left child is strictly smaller: it is copied up
        have hstep : holeDescend (f + 1) L hole
            = holeDescend f (L.set hole (hget L (2 * hole + 1))) (2 * hole + 1) := by
          simp only [holeDescend, if_pos hguard, if_pos hcmp]
          rw [e1]
        rw [e1, e2] at hcmp
        have hsib : ∀ o, (o = 2 * hole + 1 ∨ o = 2 * hole + 2) → o < L.length →
            (hget L (2 * hole + 1)).ts ≤ (hget L o).ts := by
          intro o ho holen
          rcases ho with h | h
          · rw [h]
          · rw [h]; omega
        have hok2 : HoleOk (L.set hole (hget L (2 * hole + 1))) (2 * hole + 1) :=
          holeok_copy_step L hole (2 * hole + 1) hlt hc1 (Or.inl rfl) hsib hok
        have hlen2 : (L.set hole (hget L (2 * hole + 1))).length = L.length :=
          List.length_set ..
        obtain ⟨i1, i2, i3, i4, i5, i6⟩ :=
          ih (L.set hole (hget L (2 * hole + 1))) (2 * hole + 1)
            (by rw [hlen2]; omega) (by rw [hlen2]; omega) hok2
        rw [hlen2] at i1 i3 i4
        refine ⟨by rw [hstep]; exact i1, by rw [hstep]; omega,
          by rw [hstep]; exact i3, by rw [hstep]; exact i4,
          by rw [hstep]; exact i5, ?_⟩
        intro x
        rw [hstep]
        have hi6 := i6 x
        have hgetne : hget (L.set hole (hget L (2 * hole + 1))) (2 * hole + 1)
            = hget L (2 * hole + 1) := hget_set_ne _ _ _ _ (by omega)
        rw [hgetne] at hi6
        have hcnt := count_set_eqn x (hget L (2 * hole + 1)) L hole hlt
        omega
      · -- the right child is weakly smaller: it is copied up
        have hstep : holeDescend (f + 1) L hole
            = holeDescend f (L.set hole (hget L (2 * hole + 2))) (2 * hole + 2) := by
          simp only [holeDescend, if_pos hguard, if_neg hcmp]
          rw [e2]
        rw [e1, e2] at hcmp
        have hsib : ∀ o, (o = 2 * hole + 1 ∨ o = 2 * hole + 2) → o < L.length →
            (hget L (2 * hole + 2)).ts ≤ (hget L o).ts := by
          intro o ho holen
          rcases ho with h | h
          · rw [h]; omega
          · rw [h]
        have hok2 : HoleOk (L.set hole (hget L (2 * hole + 2))) (2 * hole + 2) :=
          holeok_copy_step L hole (2 * hole + 2) hlt hc2 (Or.inr rfl) hsib hok
        have hlen2 : (L.set hole (hget L (2 * hole + 2))).length = L.length :=
          List.length_set ..
        obtain ⟨i1, i2, i3, i4, i5, i6⟩ :=
          ih (L.set hole (hget L (2 * hole + 2))) (2 * hole + 2)
            (by rw [hlen2]; omega) (by rw [hlen2]; omega) hok2
        rw [hlen2] at i1 i3 i4
        refine ⟨by rw [hstep]; exact i1, by rw [hstep]; omega,
          by rw [hstep]; exact i3, by rw [hstep]; exact i4,
          by rw [hstep]; exact i5, ?_⟩
        intro x
        rw [hstep]
        have hi6 := i6 x
        have hgetne : hget (L.set hole (hget L (2 * hole + 2))) (2 * hole + 2)
            = hget L (2 * hole + 2) := hget_set_ne _ _ _ _ (by omega)
        rw [hgetne] at hi6
        have hcnt := count_set_eqn x (hget L (2 * hole + 2)) L hole hlt
        omega
    · have hfst : (holeDescend (f + 1) L hole).1 = L := by
        simp only [holeDescend, if_neg hguard]
      have hsnd : (holeDescend (f + 1) L hole).2 = hole := by
        simp only [holeDescend, if_neg hguard]
      rw [hfst, hsnd]
      exact ⟨rfl, le_refl _, hlt, hguard, hok, fun x => rfl⟩

/-- The single-child special case moves the hole onto a leaf; afterwards the
hole has no child inside the region (`len ≤ 2 * hole + 1`). -/
theorem holeLastStep_spec (L : List SchedItem) (hole : Nat)
    (hlt : hole < L.length) (hstop : ¬(hole < (L.length - 1) / 2))
    (hok : HoleOk L hole) :
    (holeLastStep L hole).1.length = L.length
    ∧ (holeLastStep L hole).2 < L.length
    ∧ L.length ≤ 2 * (holeLastStep L hole).2 + 1
    ∧ HoleOk (holeLastStep L hole).1 (holeLastStep L hole).2
    ∧ (∀ x, (holeLastStep L hole).1.count x + (if hget L hole = x then 1 else 0)
        = L.count x
          + (if hget (holeLastStep L hole).1 (holeLastStep L hole).2 = x
             then 1 else 0)) := by
  by_cases hg : L.length % 2 = 0 ∧ 2 ≤ L.length ∧ hole = (L.length - 2) / 2
  · have e1 : 2 * (hole + 1) - 1 = 2 * hole + 1 := by omega
    have hfst : (holeLastStep L hole).1 = L.set hole (hget L (2 * hole + 1)) := by
      simp only [holeLastStep, if_pos hg]
      rw [e1]
    have hsnd : (holeLastStep L hole).2 = 2 * hole + 1 := by
      simp only [holeLastStep, if_pos hg]
      rw [e1]
    obtain ⟨hev, hln2, hhe⟩ := hg
    have hc : 2 * hole + 1 = L.length - 1 := by omega
    have hcl : 2 * hole + 1 < L.length := by omega
    have hsib : ∀ o, (o = 2 * hole + 1 ∨ o = 2 * hole + 2) → o < L.length →
        (hget L (2 * hole + 1)).ts ≤ (hget L o).ts := by
      intro o ho holen
      rcases ho with h | h
      · rw [h]
      · omega
    have hok2 : HoleOk (L.set hole (hget L (2 * hole + 1))) (2 * hole + 1) :=
      holeok_copy_step L hole (2 * hole + 1) hlt hcl (Or.inl rfl) hsib hok
    rw [hfst, hsnd]
    refine ⟨by simp, by omega, by omega, hok2, ?_⟩
    intro x
    have hcnt := count_set_eqn x (hget L (2 * hole + 1)) L hole hlt
    have hgt : hget (L.set hole (hget L (2 * hole + 1))) (2 * hole + 1)
        = hget L (2 * hole + 1) := hget_set_ne _ _ _ _ (by omega)
    rw [hgt]
    omega
  · have hfst : (holeLastStep L hole).1 = L := by
      simp only [holeLastStep, if_neg hg]
    have hsnd : (holeLastStep L hole).2 = hole := by
      simp only [holeLastStep, if_neg hg]
    rw [hfst, hsnd]
    refine ⟨rfl, hlt, ?_, hok, fun x => rfl⟩
    by_cases hev : L.length % 2 = 0
    · by_cases hhe : hole = (L.length - 2) / 2
      · exact absurd ⟨hev, by omega, hhe⟩ hg
      · omega
    · omega

/-- One ascent step: copying the strictly larger parent down into the hole
preserves the invariant with the hole moved up to the parent. -/
theorem holeok_ascend_step (L : List SchedItem) (hole : Nat)
    (hlt : hole < L.length) (hh0 : 0 < hole) (hok : HoleOk L hole) :
    HoleOk (L.set hole (hget L ((hole - 1) / 2))) ((hole - 1) / 2) := by
  obtain ⟨h1, h2⟩ := hok
  have hp : (hole - 1) / 2 < hole := by omega
  have hplt : (hole - 1) / 2 < L.length := by omega
  constructor
  · intro j hj hj0 hjne hpjne
    rw [List.length_set] at hj
    by_cases hjh : j = hole
    · exact absurd (by rw [hjh]) hpjne
    · by_cases hpjh : (j - 1) / 2 = hole
      · rw [hpjh, hget_set_eq _ _ _ hlt,
          hget_set_ne _ _ _ _ (fun he => hjh he.symm)]
        exact h2 j hj hj0 hpjh hh0
      · rw [hget_set_ne _ _ _ _ (fun he => hpjh he.symm),
          hget_set_ne _ _ _ _ (fun he => hjh he.symm)]
        exact h1 j hj hj0 hjh hpjh
  · intro j hj hj0 hpj hp0
    rw [List.length_set] at hj
    have hgne : hole ≠ ((hole - 1) / 2 - 1) / 2 := by omega
    by_cases hjh : j = hole
    · rw [hjh, hget_set_eq _ _ _ hlt, hget_set_ne _ _ _ _ hgne]
      exact h1 ((hole - 1) / 2) hplt hp0 (by omega) (by omega)
    · rw [hget_set_ne _ _ _ _ (fun he => hjh he.symm),
        hget_set_ne _ _ _ _ hgne]
      have hgp : (hget L (((hole - 1) / 2 - 1) / 2)).ts ≤ (hget L ((hole - 1) / 2)).ts :=
        h1 ((hole - 1) / 2) hplt hp0 (by omega) (by omega)
      have hjc := h1 j hj hj0 hjh (by omega)
      rw [hpj] at hjc
      omega

/-- The final sift-up of `__adjust_heap`: given the hole invariant and a value
dominated by everything below the hole, the result is a min-heap with the same
length and the multiset of the region with the hole content replaced by the
value. -/
theorem holeAscend_spec : ∀ (fuel : Nat) (L : List SchedItem) (hole : Nat) (v : SchedItem),
    hole ≤ fuel → hole < L.length → HoleOk L hole →
    (∀ j, j < L.length → 0 < j → (j - 1) / 2 = hole → v.ts ≤ (hget L j).ts) →
    (holeAscend fuel L hole v).length = L.length
    ∧ IsMinHeap (holeAscend fuel L hole v)
    ∧ (∀ x, (holeAscend fuel L hole v).count x + (if hget L hole = x then 1 else 0)
        = L.count x + (if v = x then 1 else 0)) := by
  intro fuel
  induction fuel with
  | zero =>
    intro L hole v hf hlt hok hdom
    have h0 : hole = 0 := by omega
    subst h0
    refine ⟨by simp [holeAscend], ?_, fun x => count_set_eqn x v L 0 hlt⟩
    intro j hj hj0
    simp only [holeAscend] at hj ⊢
    rw [List.length_set] at hj
    by_cases hpj : (j - 1) / 2 = 0
    · rw [hpj, hget_set_eq _ _ _ hlt, hget_set_ne _ _ _ _ (by omega)]
      exact hdom j hj hj0 hpj
    · rw [hget_set_ne _ _ _ _ (fun he => hpj he.symm),
        hget_set_ne _ _ _ _ (by omega)]
      exact hok.1 j hj hj0 (by omega) hpj
  | succ f ih =>
    intro L hole v hf hlt hok hdom
    by_cases hg : 0 < hole ∧ (hget L ((hole - 1) / 2)).ts > v.ts
    · have hstep : holeAscend (f + 1) L hole v
          = holeAscend f (L.set hole (hget L ((hole - 1) / 2))) ((hole - 1) / 2) v := by
        simp only [holeAscend, if_pos hg]
      obtain ⟨hh0, hgt⟩ := hg
      have hp : (hole - 1) / 2 < hole := by omega
      have hplt : (hole - 1) / 2 < L.length := by omega
      have hok2 : HoleOk (L.set hole (hget L ((hole - 1) / 2))) ((hole - 1) / 2) :=
        holeok_ascend_step L hole hlt hh0 hok
      have hdom2 : ∀ j, j < (L.set hole (hget L ((hole - 1) / 2))).length → 0 < j →
          (j - 1) / 2 = (hole - 1) / 2 →
          v.ts ≤ (hget (L.set hole (hget L ((hole - 1) / 2))) j).ts := by
        intro j hj hj0 hpj
        rw [List.length_set] at hj
        by_cases hjh : j = hole
        · rw [hjh, hget_set_eq _ _ _ hlt]
          omega
        · rw [hget_set_ne _ _ _ _ (fun he => hjh he.symm)]
          have hjc := hok.1 j hj hj0 hjh (by omega)
          rw [hpj] at hjc
          omega
      obtain ⟨i1, i2, i3⟩ :=
        ih (L.set hole (hget L ((hole - 1) / 2))) ((hole - 1) / 2) v
          (by omega) (by simpa using hplt) hok2 hdom2
      rw [List.length_set] at i1
      refine ⟨by rw [hstep]; exact i1, by rw [hstep]; exact i2, ?_⟩
      intro x
      rw [hstep]
      have hi3 := i3 x
      have hgp : hget (L.set hole (hget L ((hole - 1) / 2))) ((hole - 1) / 2)
          = hget L ((hole - 1) / 2) := hget_set_ne _ _ _ _ (by omega)
      rw [hgp] at hi3
      have hcnt := count_set_eqn x (hget L ((hole - 1) / 2)) L hole hlt
      omega
    · have hstep : holeAscend (f + 1) L hole v = L.set hole v := by
        simp only [holeAscend, if_neg hg]
      rw [hstep]
      refine ⟨by simp, ?_, fun x => count_set_eqn x v L hole hlt⟩
      intro j hj hj0
      rw [List.length_set] at hj
      by_cases hjh : j = hole
      · have hh0 : 0 < hole := by omega
        have hng : ¬ (hget L ((hole - 1) / 2)).ts > v.ts := fun hb => hg ⟨hh0, hb⟩
        rw [hjh, hget_set_eq _ _ _ hlt, hget_set_ne _ _ _ _ (by omega)]
        omega
      · by_cases hpj : (j - 1) / 2 = hole
        · rw [hpj, hget_set_eq _ _ _ hlt,
            hget_set_ne _ _ _ _ (fun he => hjh he.symm)]
          exact hdom j hj hj0 hpj
        · rw [hget_set_ne _ _ _ _ (fun he => hpj he.symm),
            hget_set_ne _ _ _ _ (fun he => hjh he.symm)]
          exact hok.1 j hj hj0 hjh hpj

/-- `__adjust_heap` on a non-empty region whose slot 0 is the hole: the result
is a min-heap of the same length whose multiset is the region's with the hole
content replaced by the value. -/
theorem adjustHeap_spec (L : List SchedItem) (v : SchedItem)
    (hL : 0 < L.length) (hok : HoleOk L 0) :
    (adjustHeap L v).length = L.length
    ∧ IsMinHeap (adjustHeap L v)
    ∧ (∀ x, (adjustHeap L v).count x + (if hget L 0 = x then 1 else 0)
        = L.count x + (if v = x then 1 else 0)) := by
  obtain ⟨d1, d2, d3, d4, d5, d6⟩ := holeDescend_spec L.length L 0 (by omega) hL hok
  obtain ⟨L1, h1, hE1⟩ : ∃ L1 h1, holeDescend L.length L 0 = (L1, h1) := ⟨_, _, rfl⟩
  have hE1f : (holeDescend L.length L 0).1 = L1 := by rw [hE1]
  have hE1s : (holeDescend L.length L 0).2 = h1 := by rw [hE1]
  rw [hE1f] at d1 d5 d6
  rw [hE1s] at d2 d3 d4 d5 d6
  obtain ⟨s1, s2, s3, s4, s5⟩ :=
    holeLastStep_spec L1 h1 (by rw [d1]; exact d3) (by rw [d1]; exact d4) d5
  obtain ⟨L2, h2, hE2⟩ : ∃ L2 h2, holeLastStep L1 h1 = (L2, h2) := ⟨_, _, rfl⟩
  have hE2f : (holeLastStep L1 h1).1 = L2 := by rw [hE2]
  have hE2s : (holeLastStep L1 h1).2 = h2 := by rw [hE2]
  rw [hE2f] at s1 s4 s5
  rw [hE2s] at s2 s3 s4 s5
  have hadj : adjustHeap L v = holeAscend h2 L2 h2 v := by
    simp only [adjustHeap]
    rw [hE1f, hE1s, hE2f, hE2s]
  have hdom : ∀ j, j < L2.length → 0 < j → (j - 1) / 2 = h2 → v.ts ≤ (hget L2 j).ts := by
    intro j hj hj0 hpj
    rw [s1] at hj
    omega
  obtain ⟨a1, a2, a3⟩ := holeAscend_spec h2 L2 h2 v (le_refl _)
    (by rw [s1]; exact s2) s4 hdom
  rw [hadj]
  refine ⟨by rw [a1, s1, d1], a2, ?_⟩
  intro x
  have ha := a3 x
  have hs := s5 x
  have hd := d6 x
  omega

theorem removeFirst_spec (l : List SchedItem) (hne : l ≠ []) (hh : IsMinHeap l) :
    removeFirst l = (some (hget l 0), (removeFirst l).2)
    ∧ IsMinHeap (removeFirst l).2
    ∧ List.Perm (hget l 0 :: (removeFirst l).2) l
    ∧ (∀ y ∈ (removeFirst l).2, (hget l 0).ts ≤ y.ts)
    ∧ (removeFirst l).2.length = l.length - 1 := by
  have hlen : 0 < l.length := List.length_pos.mpr hne
  have hfst : removeFirst l
      = (some (hget l 0), adjustHeap (l.take (l.length - 1)) (hget l (l.length - 1))) := by
    cases l with
    | nil => simp at hne
    | cons a t => rfl
  have hrest : (removeFirst l).2
      = adjustHeap (l.take (l.length - 1)) (hget l (l.length - 1)) := by
    rw [hfst]
  by_cases hone : l.length = 1
  · cases l with
    | nil => simp at hne
    | cons a t =>
      cases t with
      | cons b t2 => simp at hone
      | nil =>
        have hr : (removeFirst [a]).2 = [] := rfl
        refine ⟨rfl, ?_, ?_, ?_, rfl⟩
        · rw [hr]
          intro j hj hj0
          simp at hj
        · have e : hget [a] 0 :: (removeFirst [a]).2 = [a] := rfl
          rw [e]
        · intro y hy
          rw [hr] at hy
          simp at hy
  · have hlen2 : 2 ≤ l.length := by omega
    have hTlen : (l.take (l.length - 1)).length = l.length - 1 := by
      rw [List.length_take]
      omega
    have hTpos : 0 < (l.take (l.length - 1)).length := by rw [hTlen]; omega
    have hok : HoleOk (l.take (l.length - 1)) 0 := by
      constructor
      · intro j hj hj0 hjne hpjne
        rw [hTlen] at hj
        rw [hget_take _ _ _ (by omega), hget_take _ _ _ (by omega)]
        exact hh j (by omega) hj0
      · intro j hj hj0 hpj hp0
        omega
    obtain ⟨a1, a2, a3⟩ :=
      adjustHeap_spec (l.take (l.length - 1)) (hget l (l.length - 1)) hTpos hok
    have hperm : List.Perm (hget l 0 :: (removeFirst l).2) l := by
      rw [List.perm_iff_count]
      intro x
      have hct := congrArg (List.count x) (take_last l hne)
      rw [List.count_append] at hct
      have ha := a3 x
      have hT0 : hget (l.take (l.length - 1)) 0 = hget l 0 :=
        hget_take _ _ _ (by omega)
      rw [hT0] at ha
      rw [hrest]
      simp only [List.count_cons, List.count_nil, beq_iff_eq] at hct ⊢
      omega
    refine ⟨by rw [hfst], by rw [hrest]; exact a2, hperm, ?_, by rw [hrest, a1, hTlen]⟩
    intro y hy
    have hyl : y ∈ l := hperm.mem_iff.mp (List.mem_cons_of_mem _ hy)
    obtain ⟨k, hk, hkeq⟩ := mem_exists_hget l y hyl
    rw [← hkeq]
    exact rootMin l hh k hk

theorem updateHeapElement_heap (l : List SchedItem) (pos : Nat) (nv : SchedItem)
    (hh : IsMinHeap l) (hp : pos < l.length) :
    IsMinHeap (updateHeapElement l pos nv) := by
  rw [updateHeapElement]
  by_cases hc : (hget l pos).ts > nv.ts
  · rw [if_pos hc, siftUp]
    apply siftUpGo_heap _ _ _ (le_refl _) (by simpa using hp)
    constructor
    · intro j hj hj0 hjne
      rw [List.length_set] at hj
      rw [hget_set_ne _ _ _ _ (fun h => hjne h.symm)]
      by_cases hpar : (j - 1) / 2 = pos
      · rw [hpar, hget_set_eq _ _ _ hp]
        have := hh j hj hj0
        rw [hpar] at this
        omega
      · rw [hget_set_ne _ _ _ _ (fun h => hpar h.symm)]
        exact hh j hj hj0
    · intro j hj hpar hp0
      rw [List.length_set] at hj
      have hgne : (pos - 1) / 2 ≠ pos := by omega
      rw [hget_set_ne _ _ _ _ (fun h => hgne h.symm)]
      have hjne : j ≠ pos := by omega
      rw [hget_set_ne _ _ _ _ (fun h => hjne h.symm)]
      have h1 := hh pos hp hp0
      have h2 := hh j hj (by omega)
      rw [hpar] at h2
      omega
  · rw [if_neg hc, siftDown]
    apply siftDownGo_heap _ _ _ (by omega)
    constructor
    · intro j hj hj0 hjne
      rw [List.length_set] at hj
      by_cases hjpos : j = pos
      · have hparne : (pos - 1) / 2 ≠ pos := by rw [hjpos] at hjne; exact hjne
        have hp0 : 0 < pos := by omega
        rw [hjpos, hget_set_eq _ _ _ hp, hget_set_ne _ _ _ _ (fun h => hparne h.symm)]
        have := hh pos hp hp0
        omega
      · rw [hget_set_ne _ _ _ _ (fun h => hjpos h.symm),
          hget_set_ne _ _ _ _ (fun h => hjne h.symm)]
        exact hh j hj hj0
    · intro j hj hj0 hpar hp0
      rw [List.length_set] at hj
      have hgne : (pos - 1) / 2 ≠ pos := by omega
      have hjne : j ≠ pos := by omega
      rw [hget_set_ne _ _ _ _ (fun h => hgne h.symm),
        hget_set_ne _ _ _ _ (fun h => hjne h.symm)]
      have h1 := hh pos hp hp0
      have h2 := hh j hj hj0
      rw [hpar] at h2
      omega

theorem updateHeapElement_perm (l : List SchedItem) (pos : Nat) (nv : SchedItem)
    (hp : pos < l.length) :
    List.Perm (updateHeapElement l pos nv) (l.set pos nv) := by
  rw [updateHeapElement]
  by_cases hc : (hget l pos).ts > nv.ts
  · rw [if_pos hc, siftUp]
    exact siftUpGo_perm _ _ _ (by simpa using hp)
  · rw [if_neg hc, siftDown]
    exact siftDownGo_perm _ _ _

theorem updateHeapElement_length (l : List SchedItem) (pos : Nat) (nv : SchedItem) :
    (updateHeapElement l pos nv).length = l.length := by
  rw [updateHeapElement]
  by_cases hc : (hget l pos).ts > nv.ts
  · rw [if_pos hc, siftUp, siftUpGo_length, List.length_set]
  · rw [if_neg hc, siftDown, siftDownGo_length, List.length_set]

theorem updateHeapElement_last (l : List SchedItem) (pos : Nat)
    (hp : pos < l.length - 1) :
    hget (updateHeapElement l pos (hget l (l.length - 1))) (l.length - 1)
      = hget l (l.length - 1) := by
  have hlen : pos < l.length := by omega
  have hne : pos ≠ l.length - 1 := by omega
  have hset : hget (l.set pos (hget l (l.length - 1))) (l.length - 1)
      = hget l (l.length - 1) := hget_set_ne _ _ _ _ hne
  rw [updateHeapElement]
  by_cases hc : (hget l pos).ts > (hget l (l.length - 1)).ts
  · rw [if_pos hc, siftUp, siftUpGo_above _ _ _ _ (by omega), hset]
  · rw [if_neg hc, siftDown]
    obtain ⟨S, hS⟩ : ∃ S, l.set pos (hget l (l.length - 1)) = S := ⟨_, rfl⟩
    rw [hS]
    have hL2 : S.length = l.length := by rw [← hS]; simp
    have hcond : (hget S pos).ts ≤ (hget S (S.length - 1)).ts := by
      rw [hL2, ← hS, hget_set_eq _ _ _ hlen, hset]
    have hstep := siftDownGo_last S.length S pos (by rw [hL2]; omega) hcond
    rw [hL2] at hstep
    rw [hL2, hstep, ← hS, hset]

theorem findIdent_spec : ∀ (l : List SchedItem) (id : Nat),
    findIdent l id = none ∨
    ∃ i, findIdent l id = some i ∧ i < l.length ∧ (hget l i).ident = id := by
  intro l
  induction l with
  | nil => intro id; left; rfl
  | cons x rest ih =>
    intro id
    by_cases hx : x.ident = id
    · right
      exact ⟨0, by simp [findIdent, hx], by simp, hx⟩
    · rcases ih id with hnone | ⟨i, hi, hilen, hident⟩
      · left
        simp [findIdent, hx, hnone]
      · right
        refine ⟨i + 1, by simp [findIdent, hx, hi], by simp; omega, ?_⟩
        rw [hget_cons_succ]
        exact hident

theorem removeByIdent_spec (l : List SchedItem) (id : Nat) (hh : IsMinHeap l) :
    (removeByIdent l id = (none, l))
    ∨ (∃ r rest, removeByIdent l id = (some r, rest) ∧ r.ident = id
        ∧ IsMinHeap rest ∧ List.Perm (r :: rest) l) := by
  rcases findIdent_spec l id with hnone | ⟨i, hfind, hilen, hident⟩
  · left
    rw [removeByIdent, hnone]
  · right
    simp only [removeByIdent, hfind]
    by_cases hi0 : i = 0
    · subst hi0
      simp only [if_pos rfl]
      have hne : l ≠ [] := by intro hc; rw [hc] at hilen; simp at hilen
      obtain ⟨-, hheap, hperm, -, -⟩ := removeFirst_spec l hne hh
      exact ⟨hget l 0, (removeFirst l).2, rfl, hident, hheap, hperm⟩
    · rw [if_neg hi0]
      by_cases hlast : i = l.length - 1
      · rw [if_pos hlast]
        refine ⟨hget l i, l.take (l.length - 1), rfl, hident, take_heap l _ hh, ?_⟩
        have hne : l ≠ [] := by intro hc; rw [hc] at hilen; simp at hilen
        have htl := take_last l hne
        rw [hlast]
        have hsp := (List.perm_append_singleton (hget l (l.length - 1))
          (l.take (l.length - 1))).symm
        rw [htl] at hsp
        exact hsp
      · rw [if_neg hlast]
        have h0i : 0 < i := by omega
        have hilt : i < l.length - 1 := by omega
        have hUlen : (updateHeapElement l i (hget l (l.length - 1))).length = l.length :=
          updateHeapElement_length ..
        have hUheap : IsMinHeap (updateHeapElement l i (hget l (l.length - 1))) :=
          updateHeapElement_heap l i _ hh hilen
        have hUlast : hget (updateHeapElement l i (hget l (l.length - 1))) (l.length - 1)
            = hget l (l.length - 1) := updateHeapElement_last l i hilt
        refine ⟨hget l i, _, rfl, hident, take_heap _ _ hUheap, ?_⟩
        rw [List.perm_iff_count]
        intro x
        have hUne : updateHeapElement l i (hget l (l.length - 1)) ≠ [] := by
          intro hc
          rw [hc] at hUlen
          simp at hUlen
          omega
        have hTL := take_last (updateHeapElement l i (hget l (l.length - 1))) hUne
        rw [hUlen, hUlast] at hTL
        have hcount1 := congrArg (List.count x) hTL
        rw [List.count_append] at hcount1
        have hcount2 : (updateHeapElement l i (hget l (l.length - 1))).count x
            = (l.set i (hget l (l.length - 1))).count x :=
          (updateHeapElement_perm l i _ hilen).count_eq x
        have hcount3 := count_set_eqn x (hget l (l.length - 1)) l i hilen
        simp only [List.count_cons, List.count_nil, beq_iff_eq] at hcount1 ⊢
        omega

theorem count_set_eqn_nat (x a : Nat) :
    ∀ (l : List Nat) (i : Nat), i < l.length →
      (l.set i a).count x + (if l.getD i 0 = x then 1 else 0)
        = l.count x + (if a = x then 1 else 0) := by
  intro l
  induction l with
  | nil => intro i h; simp at h
  | cons b t ih =>
    intro i h
    cases i with
    | zero =>
      simp only [List.set, List.count_cons, List.getD_cons_zero, beq_iff_eq]
      omega
    | succ n =>
      have hn : n < t.length := by simpa using h
      have := ih n hn
      simp only [List.set, List.count_cons, List.getD_cons_succ, beq_iff_eq] at *
      omega

theorem ident_getD_map (l : List SchedItem) (i : Nat) (h : i < l.length) :
    (l.map SchedItem.ident).getD i 0 = (hget l i).ident := by
  have h2 : i < (l.map SchedItem.ident).length := by simpa using h
  rw [List.getD_eq_getElem _ _ h2, hget, List.getD_eq_getElem _ _ h]
  simp

theorem updateHeapElement_ident_perm (l : List SchedItem) (i tp id : Nat)
    (hp : i < l.length) (hident : (hget l i).ident = id) :
    List.Perm ((updateHeapElement l i ⟨tp, id⟩).map SchedItem.ident)
      (l.map SchedItem.ident) := by
  have h1 : List.Perm ((updateHeapElement l i ⟨tp, id⟩).map SchedItem.ident)
      ((l.set i ⟨tp, id⟩).map SchedItem.ident) :=
    (updateHeapElement_perm l i _ hp).map _
  have h2 : (l.set i (⟨tp, id⟩ : SchedItem)).map SchedItem.ident
      = (l.map SchedItem.ident).set i id := List.map_set ..
  refine h1.trans ?_
  rw [h2, List.perm_iff_count]
  intro x
  have h3 := count_set_eqn_nat x id (l.map SchedItem.ident) i (by simpa using hp)
  rw [ident_getD_map l i hp, hident] at h3
  omega

theorem setTimeGo_spec (id tp : Nat) :
    ∀ (fuel : Nat) (l : List SchedItem) (i : Nat), fuel + i ≤ l.length → IsMinHeap l →
      IsMinHeap (setTimeGo id tp fuel l i)
      ∧ List.Perm ((setTimeGo id tp fuel l i).map SchedItem.ident) (l.map SchedItem.ident)
      ∧ (setTimeGo id tp fuel l i).length = l.length := by
  intro fuel
  induction fuel with
  | zero =>
    intro l i hf hh
    exact ⟨hh, List.Perm.refl _, rfl⟩
  | succ f ih =>
    intro l i hf hh
    simp only [setTimeGo]
    by_cases hm : (hget l i).ident = id
    · rw [if_pos hm]
      have hp : i < l.length := by omega
      have hUlen : (updateHeapElement l i ⟨tp, id⟩).length = l.length :=
        updateHeapElement_length ..
      obtain ⟨ha, hb, hc⟩ := ih (updateHeapElement l i ⟨tp, id⟩) (i + 1)
        (by rw [hUlen]; omega) (updateHeapElement_heap l i _ hh hp)
      exact ⟨ha, hb.trans (updateHeapElement_ident_perm l i tp id hp hm),
        by rw [hc, hUlen]⟩
    · rw [if_neg hm]
      exact ih l (i + 1) (by omega) hh

theorem setTime_spec (l : List SchedItem) (id tp : Nat) (hh : IsMinHeap l) :
    IsMinHeap (setTime l id tp)
    ∧ List.Perm ((setTime l id tp).map SchedItem.ident) (l.map SchedItem.ident) := by
  obtain ⟨ha, hb, -⟩ := setTimeGo_spec id tp l.length l 0 (by omega) hh
  exact ⟨ha, hb⟩

theorem drainGo_spec : ∀ (fuel : Nat) (l : List SchedItem), IsMinHeap l →
    l.length ≤ fuel →
    List.Perm (drainGo fuel l) l
    ∧ List.Pairwise (fun a b => a.ts ≤ b.ts) (drainGo fuel l) := by
  intro fuel
  induction fuel with
  | zero =>
    intro l hh hlen
    have h0 : l = [] := List.length_eq_zero.mp (by omega)
    subst h0
    exact ⟨List.Perm.refl _, List.Pairwise.nil⟩
  | succ f ih =>
    intro l hh hlen
    cases hl : l with
    | nil =>
      subst hl
      have h0 : drainGo (f + 1) ([] : List SchedItem) = [] := rfl
      rw [h0]
      exact ⟨List.Perm.refl _, List.Pairwise.nil⟩
    | cons a t =>
      subst hl
      have hne : (a :: t) ≠ [] := by simp
      obtain ⟨hfst, hheap, hperm, hmin, hlen2⟩ := removeFirst_spec (a :: t) hne hh
      obtain ⟨R, hR⟩ : ∃ R, (removeFirst (a :: t)).2 = R := ⟨_, rfl⟩
      rw [hR] at hfst hheap hperm hmin hlen2
      simp only [drainGo, hfst]
      obtain ⟨ihp, ihs⟩ := ih R hheap (by rw [hlen2]; simp at hlen ⊢; omega)
      constructor
      · exact (ihp.cons _).trans hperm
      · exact List.Pairwise.cons (fun y hy => hmin y (ihp.mem_iff.mp hy)) ihs

theorem drainHeap_spec (l : List SchedItem) (hh : IsMinHeap l) :
    List.Perm (drainHeap l) l
    ∧ List.Pairwise (fun a b => a.ts ≤ b.ts) (drainHeap l) :=
  drainGo_spec l.length l hh (le_refl _)

/-- Public scheduler operations covered by the claim: `sched` is
`sleep_until`/`schedule_at`, `cancel` is `cancel(ident, …)` via
`remove_by_ident`, and `alertOp` is `alert(flag)`, which sets the flag and
calls `set_time(&flag, now)`. -/
inductive SchedOp where
  | sched (ts id : Nat)
  | cancel (id : Nat)
  | alertOp (id now : Nat)
deriving DecidableEq, Repr

/-- Apply one operation to the pair of (heap, results already cancelled). -/
def schedApply (st : List SchedItem × List SchedItem) (o : SchedOp) :
    List SchedItem × List SchedItem :=
  match o with
  | .sched ts id => (scheduleAt st.1 ⟨ts, id⟩, st.2)
  | .cancel id =>
    match removeByIdent st.1 id with
    | (none, h1) => (h1, st.2)
    | (some r, h1) => (h1, st.2 ++ [r])
  | .alertOp id now => (setTime st.1 id now, st.2)

/-- Run a sequence of operations from the empty scheduler. -/
def schedRun (ops : List SchedOp) : List SchedItem × List SchedItem :=
  ops.foldl schedApply ([], [])

/-- The identities scheduled by a sequence of operations. -/
def schedIdents (ops : List SchedOp) : List Nat :=
  ops.filterMap (fun o => match o with | .sched _ id => some id | _ => none)

theorem schedRun_inv (ops : List SchedOp) :
    IsMinHeap (schedRun ops).1
    ∧ List.Perm
        ((schedRun ops).1.map SchedItem.ident ++ ((schedRun ops).2).map SchedItem.ident)
        (schedIdents ops) := by
  induction ops using List.reverseRecOn with
  | nil =>
    constructor
    · intro j hj
      simp [schedRun] at hj
    · simp [schedRun, schedIdents]
  | append_singleton t o iht =>
    obtain ⟨hheap, hperm⟩ := iht
    have hrun : schedRun (t ++ [o]) = schedApply (schedRun t) o := by
      rw [schedRun, List.foldl_append]
      rfl
    have hids : schedIdents (t ++ [o]) = schedIdents t
        ++ (match o with | .sched _ id => [id] | _ => []) := by
      rw [schedIdents, List.filterMap_append]
      cases o <;> rfl
    rw [hrun, hids]
    cases o with
    | sched ts id =>
      constructor
      · exact scheduleAt_heap _ _ hheap
      · have hmap : List.Perm ((scheduleAt (schedRun t).1 ⟨ts, id⟩).map SchedItem.ident)
            (id :: (schedRun t).1.map SchedItem.ident) :=
          (scheduleAt_perm (schedRun t).1 ⟨ts, id⟩).map _
        refine ((hmap.append_right _).trans ?_)
        refine ((hperm.cons id).trans ?_)
        exact (List.perm_append_singleton id (schedIdents t)).symm
    | cancel id =>
      rcases removeByIdent_spec (schedRun t).1 id hheap with heq | ⟨r, rest, heq, hrid, hrheap, hrperm⟩
      · simp only [schedApply, heq]
        exact ⟨hheap, by simpa using hperm⟩
      · simp only [schedApply, heq]
        refine ⟨hrheap, ?_⟩
        simp only [List.map_append, List.map_cons, List.map_nil, List.append_nil]
        have hmap : List.Perm (r.ident :: rest.map SchedItem.ident)
            ((schedRun t).1.map SchedItem.ident) := hrperm.map _
        have hmid : List.Perm
            (rest.map SchedItem.ident ++ (r.ident :: ((schedRun t).2).map SchedItem.ident))
            (r.ident :: (rest.map SchedItem.ident ++ ((schedRun t).2).map SchedItem.ident)) :=
          List.perm_middle
        have hstep1 : List.Perm
            (rest.map SchedItem.ident ++ (((schedRun t).2).map SchedItem.ident ++ [r.ident]))
            (rest.map SchedItem.ident ++ (r.ident :: ((schedRun t).2).map SchedItem.ident)) :=
          (List.perm_append_singleton r.ident _).append_left _
        exact hstep1.trans (hmid.trans ((hmap.append_right _).trans hperm))
    | alertOp id now =>
      obtain ⟨ha, hb⟩ := setTime_spec (schedRun t).1 id now hheap
      exact ⟨ha, by simpa using (hb.append_right _).trans hperm⟩

/-- C8 counterexample: four sleepers with equal deadline 5 and identities
1, 2, 3, 4 scheduled in that order fire in the order 1, 3, 2, 4 when drained —
the `std::pop_heap` re-heapification (libstdc++ `__adjust_heap`: hole to a
leaf, then sift the saved back value up) moves equal-key elements past one
another, so the heap does not break ties by insertion order. -/
theorem c8_ties_not_insertion_order_cex :
    drainHeap (scheduleAt (scheduleAt (scheduleAt (scheduleAt [] ⟨5, 1⟩) ⟨5, 2⟩)
        ⟨5, 3⟩) ⟨5, 4⟩)
      = [⟨5, 1⟩, ⟨5, 3⟩, ⟨5, 2⟩, ⟨5, 4⟩]
    ∧ ([⟨5, 1⟩, ⟨5, 3⟩, ⟨5, 2⟩, ⟨5, 4⟩] : List SchedItem)
      ≠ [⟨5, 1⟩, ⟨5, 2⟩, ⟨5, 3⟩, ⟨5, 4⟩] := by
  exact ⟨rfl, by decide⟩

/-- C8 (amended): for every sequence of schedule, cancel and alert operations
on the scheduler, the heap stays a min-heap on deadlines and the driver fires
the remaining sleepers in non-decreasing deadline order — ties among equal
deadlines are broken by the heap layout, not by insertion order; every
scheduled sleeper is accounted for exactly once between the firing sequence and
the explicit cancellations (an alert merely reschedules its sleeper to fire
immediately), so no sleeper is fired twice or lost; and a driver iteration
fires an item only when the sampled clock is strictly past the item's (possibly
alert-shortened) deadline, i.e. at or after the deadline. -/
theorem c8_scheduler_order_conservation :
    (∀ ops : List SchedOp,
        IsMinHeap (schedRun ops).1
        ∧ List.Pairwise (fun a b => a.ts ≤ b.ts) (drainHeap (schedRun ops).1)
        ∧ List.Perm
            ((drainHeap (schedRun ops).1).map SchedItem.ident
              ++ ((schedRun ops).2).map SchedItem.ident)
            (schedIdents ops))
    ∧ (∀ (now : Nat) (l : List SchedItem) (x : SchedItem) (rest : List SchedItem),
        runThreadStep now l = some (x, rest) → x.ts < now) := by
  constructor
  · intro ops
    obtain ⟨hheap, hperm⟩ := schedRun_inv ops
    obtain ⟨hdp, hds⟩ := drainHeap_spec (schedRun ops).1 hheap
    refine ⟨hheap, hds, ?_⟩
    exact ((hdp.map _).append_right _).trans hperm
  · intro now l x rest h
    cases l with
    | nil => simp [runThreadStep, getFirstScheduledTime] at h
    | cons a t =>
      simp only [runThreadStep, getFirstScheduledTime] at h
      by_cases hc : now > (hget (a :: t) 0).ts
      · rw [if_pos hc] at h
        have hr : removeFirst (a :: t)
            = (some (hget (a :: t) 0), (removeFirst (a :: t)).2) := rfl
        rw [hr] at h
        simp only [Option.some.injEq, Prod.mk.injEq] at h
        obtain ⟨hx, -⟩ := h
        rw [← hx]
        exact hc
      · rw [if_neg hc] at h
        simp at h

theorem c8_scheduler_order_conservation_witness :
    (IsMinHeap (schedRun [SchedOp.sched 5 1]).1
      ∧ List.Pairwise (fun a b => a.ts ≤ b.ts) (drainHeap (schedRun [SchedOp.sched 5 1]).1)
      ∧ List.Perm
          ((drainHeap (schedRun [SchedOp.sched 5 1]).1).map SchedItem.ident
            ++ ((schedRun [SchedOp.sched 5 1]).2).map SchedItem.ident)
          (schedIdents [SchedOp.sched 5 1]))
    ∧ (⟨5, 1⟩ : SchedItem).ts < 7 :=
  ⟨c8_scheduler_order_conservation.1 [SchedOp.sched 5 1],
   c8_scheduler_order_conservation.2 7 [⟨5, 1⟩] ⟨5, 1⟩ [] rfl⟩
